import Mathlib

set_option autoImplicit false

/-!
# Verification of the koko-tts cache and chunk-stitching core

Shallow embedding of the core subsystems of the koko-tts repository:

* `StringUtils.splitTextIntoChunks` (with `splitLongSentence`, `splitByWords`)
  from `src/utils.ts` — the text segmenter;
* `AudioStitcher.stitchChunks` from `src/services/audio-stitcher.ts`;
* `AudioService.streamAudio`'s persistence path from `src/services/audio.ts`;
* `CacheService` (`get`, `set`, `deleteEntry`, `enforceConstraints`,
  `generateCacheKey`, `updateStats`, `getStats`) from `src/services/cache.ts`.

Strings are modelled as `List Char`, JS numbers for sizes/timestamps as `ℤ`,
audio samples (Float32) as `ℚ`, and the filesystem as an association list
from paths to byte lists.  Async I/O is sequentialized (the source awaits
every call in order; there is a single mutator).
-/

namespace Koko

/-! ## JS string primitives -/

/-- JS whitespace (`\s` / `String.prototype.trim`) restricted to the ASCII
whitespace characters: space, tab, `\n`, `\r`, vertical tab, form feed.
(Unicode whitespace is not modelled; no claim involves it.) -/
def jsWs (c : Char) : Bool :=
  c == ' ' || c == '\t' || c == '\n' || c == '\r' || c.toNat == 11 || c.toNat == 12

/-- JS `String.prototype.trim`: drop leading and trailing whitespace. -/
def jsTrim (s : List Char) : List Char :=
  ((s.dropWhile jsWs).reverse.dropWhile jsWs).reverse

/-- The non-whitespace content of a string, in order. -/
def nonWs (s : List Char) : List Char :=
  s.filter (fun c => !jsWs c)

/-- Join a list of strings with single separating spaces. -/
def sJoin : List (List Char) → List Char
  | [] => []
  | [c] => c
  | c :: c2 :: rest => c ++ ' ' :: sJoin (c2 :: rest)

/-- JS `text.split(' ')`: split on every single space character, keeping
empty pieces. -/
def splitOnSpace (s : List Char) : List (List Char) :=
  s.foldr
    (fun c acc =>
      if c == ' ' then [] :: acc
      else
        match acc with
        | [] => [[c]]
        | a :: as => (c :: a) :: as)
    [[]]

/-! ## Regex scanners for the segmenter

`splitTextIntoChunks` uses `/[.!?;:]+(?:\s|$)|\n\n+/g` to split text into
sentences (via `split` and `match`), and `splitLongSentence` uses `/,\s+/`.
Both are replayed by a left-to-right scanner: at each position the matcher
is tried; on success the match is recorded as a delimiter and scanning
resumes after it, otherwise the character is appended to the current part.
The scanner carries fuel equal to the input length, which suffices because
every step consumes at least one character. -/

/-- Sentence-ending punctuation class `[.!?;:]`. -/
def isPunctEnd (c : Char) : Bool :=
  c == '.' || c == '!' || c == '?' || c == ';' || c == ':'

/-- Try `/\n\n+/` at the head of `s`: two or more newlines (greedy). -/
def tryNewlines (s : List Char) : Option (List Char × List Char) :=
  let nls := s.takeWhile (fun c => c == '\n')
  if 2 ≤ nls.length then some (nls, s.drop nls.length) else none

/-- Try `/[.!?;:]+(?:\s|$)|\n\n+/` at the head of `s`.  The first
alternative matches a maximal punctuation run followed by one whitespace
character (consumed) or end of input; greedy backtracking cannot succeed
with a shorter run, since the next character would still be punctuation. -/
def tryDelim (s : List Char) : Option (List Char × List Char) :=
  let punct := s.takeWhile isPunctEnd
  if 0 < punct.length then
    match s.drop punct.length with
    | [] => some (punct, [])
    | c :: r => if jsWs c then some (punct ++ [c], r) else tryNewlines s
  else tryNewlines s

/-- Try `/,\s+/` at the head of `s`: a comma followed by one or more
whitespace characters (greedy). -/
def tryComma (s : List Char) : Option (List Char × List Char) :=
  match s with
  | ',' :: rest =>
    match rest with
    | c :: _ =>
      if jsWs c then
        let ws := rest.takeWhile jsWs
        some (',' :: ws, rest.drop ws.length)
      else none
    | [] => none
  | _ => none

/-- Global regex scan: returns the parts between matches (JS `split`) and
the list of matches (JS `match`), in order. -/
def scanSplit (matchAt : List Char → Option (List Char × List Char)) :
    ℕ → List Char → List Char → List (List Char) × List (List Char)
  | 0, acc, s => ([acc.reverse ++ s], [])
  | _ + 1, acc, [] => ([acc.reverse], [])
  | fuel + 1, acc, c :: rest =>
    match matchAt (c :: rest) with
    | some (m, r) =>
      let res := scanSplit matchAt fuel [] r
      (acc.reverse :: res.1, m :: res.2)
    | none => scanSplit matchAt fuel (c :: acc) rest

/-- `text.split(sentencePattern)` paired with `text.match(sentencePattern)`. -/
def sentenceSplit (t : List Char) : List (List Char) × List (List Char) :=
  scanSplit tryDelim (t.length + 1) [] t

/-- Reconstruct sentences with their punctuation: for each part (in order),
`parts[i].trim() + (delimiters[i] || '').trim()`, skipping empty parts. -/
def buildSentences : List (List Char) → List (List Char) → List (List Char)
  | [], _ => []
  | p :: ps, ds =>
    let part := jsTrim p
    let delim := jsTrim (ds.headD [])
    let rest := buildSentences ps ds.tail
    if 0 < part.length then (part ++ delim) :: rest else rest

/-- The sentence list `splitTextIntoChunks` derives from `text`. -/
def sentencesOf (t : List Char) : List (List Char) :=
  buildSentences (sentenceSplit t).1 (sentenceSplit t).2

/-- `sentence.split(/,\s+/)`. -/
def splitCommas (s : List Char) : List (List Char) :=
  (scanSplit tryComma (s.length + 1) [] s).1

/-! ## The segmenter (`StringUtils` in `src/utils.ts`) -/

namespace StringUtils

/-- The word-packing loop of `splitByWords`: greedily append words to the
current chunk (single-space separator); a word that does not fit closes the
current chunk, and an over-long word with no current chunk is emitted alone. -/
def wordLoop (maxChunkSize : ℕ) : List (List Char) → List Char → List (List Char)
  | [], cur => if 0 < cur.length then [cur] else []
  | w :: rest, cur =>
    let pot := cur.length + (if 0 < cur.length then 1 else 0) + w.length
    if pot ≤ maxChunkSize then
      wordLoop maxChunkSize rest (if 0 < cur.length then cur ++ ' ' :: w else w)
    else if 0 < cur.length then
      cur :: wordLoop maxChunkSize rest w
    else
      w :: wordLoop maxChunkSize rest cur

/-- `StringUtils.splitByWords`: split on spaces and greedily repack. -/
def splitByWords (text : List Char) (maxChunkSize : ℕ) : List (List Char) :=
  wordLoop maxChunkSize (splitOnSpace text) []

/-- The comma-packing loop of `splitLongSentence`: like `wordLoop` but with
a two-character `", "` separator, falling back to `splitByWords` for a
comma part that alone exceeds the limit (keeping the last word chunk open). -/
def commaLoop (maxChunkSize : ℕ) : List (List Char) → List Char → List (List Char)
  | [], cur => if 0 < cur.length then [cur] else []
  | p :: rest, cur =>
    let pot := cur.length + (if 0 < cur.length then 2 else 0) + p.length
    if pot ≤ maxChunkSize then
      commaLoop maxChunkSize rest (if 0 < cur.length then cur ++ ',' :: ' ' :: p else p)
    else if 0 < cur.length then
      cur :: commaLoop maxChunkSize rest p
    else
      let wordChunks := splitByWords p maxChunkSize
      wordChunks.dropLast ++ commaLoop maxChunkSize rest (wordChunks.getLast?.getD [])

/-- `StringUtils.splitLongSentence`: try comma boundaries first, otherwise
fall back to word splitting. -/
def splitLongSentence (sentence : List Char) (maxChunkSize : ℕ) : List (List Char) :=
  let commaParts := splitCommas sentence
  if 1 < commaParts.length then commaLoop maxChunkSize commaParts []
  else splitByWords sentence maxChunkSize

/-- The sentence-packing loop of `splitTextIntoChunks`: greedily append
trimmed sentences (single-space separator); a sentence that does not fit
closes the current chunk; an over-long sentence with no current chunk is
split by `splitLongSentence`, emitting all but the last sub-chunk and
keeping the last one open. -/
def chunkLoop (maxChunkSize : ℕ) : List (List Char) → List Char → List (List Char)
  | [], cur => if 0 < (jsTrim cur).length then [cur] else []
  | s :: rest, cur =>
    if cur.length + (if 0 < cur.length then 1 else 0) + (jsTrim s).length
        ≤ maxChunkSize then
      chunkLoop maxChunkSize rest
        (if 0 < cur.length then cur ++ ' ' :: jsTrim s else jsTrim s)
    else if 0 < cur.length then
      cur :: chunkLoop maxChunkSize rest (jsTrim s)
    else
      (splitLongSentence (jsTrim s) maxChunkSize).dropLast ++
        chunkLoop maxChunkSize rest
          ((splitLongSentence (jsTrim s) maxChunkSize).getLast?.getD [])

/-- `StringUtils.splitTextIntoChunks`: whole-text short-circuit, sentence
derivation, greedy packing, and the final all-whitespace filter. -/
def splitTextIntoChunks (text : List Char) (maxChunkSize : ℕ) : List (List Char) :=
  if text.length ≤ maxChunkSize then [text]
  else
    (chunkLoop maxChunkSize (sentencesOf text) []).filter
      (fun c => 0 < (jsTrim c).length)

end StringUtils

/-! ## Segmenter lemmas -/

theorem nonWs_append (a b : List Char) : nonWs (a ++ b) = nonWs a ++ nonWs b :=
  List.filter_append ..

theorem nonWs_dropWhile (s : List Char) : nonWs (s.dropWhile jsWs) = nonWs s := by
  induction s with
  | nil => rfl
  | cons c s ih =>
    by_cases h : jsWs c
    · have hc : nonWs (c :: s) = nonWs s := by
        unfold nonWs
        rw [List.filter_cons_of_neg (by simp [h])]
      rw [List.dropWhile_cons, if_pos h, ih, hc]
    · rw [List.dropWhile_cons, if_neg h]

theorem nonWs_reverse (s : List Char) : nonWs s.reverse = (nonWs s).reverse :=
  List.filter_reverse ..

theorem nonWs_jsTrim (s : List Char) : nonWs (jsTrim s) = nonWs s := by
  unfold jsTrim
  rw [nonWs_reverse, nonWs_dropWhile, nonWs_reverse, List.reverse_reverse,
    nonWs_dropWhile]

theorem jsTrim_length_le (s : List Char) : (jsTrim s).length ≤ s.length := by
  unfold jsTrim
  calc ((s.dropWhile jsWs).reverse.dropWhile jsWs).reverse.length
      = ((s.dropWhile jsWs).reverse.dropWhile jsWs).length := List.length_reverse ..
    _ ≤ (s.dropWhile jsWs).reverse.length := (List.dropWhile_sublist jsWs).length_le
    _ = (s.dropWhile jsWs).length := List.length_reverse ..
    _ ≤ s.length := (List.dropWhile_sublist jsWs).length_le

theorem nonWs_of_jsTrim_nil (c : List Char) (h : (jsTrim c).length = 0) :
    nonWs c = [] := by
  rw [← nonWs_jsTrim c, List.length_eq_zero.mp h]
  rfl

theorem nonWs_space_cons (t : List Char) : nonWs (' ' :: t) = nonWs t := by
  simp [nonWs, jsWs]

theorem nonWs_sJoin (l : List (List Char)) :
    nonWs (sJoin l) = (l.map nonWs).flatten := by
  induction l with
  | nil => rfl
  | cons c l ih =>
    cases l with
    | nil => simp [sJoin]
    | cons c2 rest =>
      rw [sJoin, nonWs_append, nonWs_space_cons, ih]
      simp

theorem nonWs_flatten (l : List (List Char)) :
    nonWs l.flatten = (l.map nonWs).flatten := by
  induction l with
  | nil => rfl
  | cons c l ih => rw [List.flatten_cons, nonWs_append, ih, List.map_cons,
      List.flatten_cons]

theorem flatten_nonWs_filter (l : List (List Char)) :
    (((l.filter fun c => 0 < (jsTrim c).length).map nonWs)).flatten
      = (l.map nonWs).flatten := by
  induction l with
  | nil => rfl
  | cons c l ih =>
    by_cases h : 0 < (jsTrim c).length
    · rw [List.filter_cons_of_pos (by simpa using h), List.map_cons,
        List.flatten_cons, ih, List.map_cons, List.flatten_cons]
    · have h0 : (jsTrim c).length = 0 := Nat.eq_zero_of_not_pos h
      rw [List.filter_cons_of_neg (by simpa using h), ih, List.map_cons,
        List.flatten_cons, nonWs_of_jsTrim_nil c h0, List.nil_append]

namespace StringUtils

/-- Correctness of the greedy sentence-packing loop, under the hypothesis
that every remaining sentence fits in `maxChunkSize`: every produced chunk
fits, and the chunks' non-whitespace content is the current chunk's
followed by the sentences', in order. -/
theorem chunkLoop_spec (maxChunkSize : ℕ) (sents : List (List Char)) :
    ∀ cur : List Char, (∀ s ∈ sents, s.length ≤ maxChunkSize) →
    cur.length ≤ maxChunkSize →
    (∀ c ∈ chunkLoop maxChunkSize sents cur, c.length ≤ maxChunkSize) ∧
    ((chunkLoop maxChunkSize sents cur).map nonWs).flatten
      = nonWs cur ++ (sents.map nonWs).flatten := by
  induction sents with
  | nil =>
    intro cur _ hc
    unfold chunkLoop
    by_cases h : 0 < (jsTrim cur).length
    · simp [h, hc]
    · have h0 : (jsTrim cur).length = 0 := Nat.eq_zero_of_not_pos h
      simp [h, nonWs_of_jsTrim_nil cur h0]
  | cons s rest ih =>
    intro cur hs hc
    have hslen : s.length ≤ maxChunkSize := hs s (List.mem_cons_self ..)
    have hrest : ∀ x ∈ rest, x.length ≤ maxChunkSize :=
      fun x hx => hs x (List.mem_cons_of_mem _ hx)
    have htlen : (jsTrim s).length ≤ maxChunkSize :=
      le_trans (jsTrim_length_le s) hslen
    unfold chunkLoop
    by_cases hcur : 0 < cur.length
    · by_cases hpot : cur.length + (if 0 < cur.length then 1 else 0)
          + (jsTrim s).length ≤ maxChunkSize
      · -- the sentence is appended to the current chunk
        rw [if_pos hcur] at hpot
        have hlen : (cur ++ ' ' :: jsTrim s).length ≤ maxChunkSize := by
          simp only [List.length_append, List.length_cons]
          omega
        have h2 := ih (cur ++ ' ' :: jsTrim s) hrest hlen
        rw [if_pos (by rw [if_pos hcur]; exact hpot), if_pos hcur]
        refine ⟨h2.1, ?_⟩
        rw [h2.2, nonWs_append, nonWs_space_cons, nonWs_jsTrim]
        simp
      · -- the sentence does not fit: close the current chunk
        have h2 := ih (jsTrim s) hrest htlen
        rw [if_neg hpot, if_pos hcur]
        constructor
        · intro c hcm
          rcases List.mem_cons.mp hcm with h | h
          · exact h ▸ hc
          · exact h2.1 c h
        · rw [List.map_cons, List.flatten_cons, h2.2, nonWs_jsTrim]
          simp
    · -- no current chunk: the sentence always fits (it is within the limit)
      have hnil : cur = [] := List.length_eq_zero.mp (Nat.eq_zero_of_not_pos hcur)
      have hpot : cur.length + (if 0 < cur.length then 1 else 0)
          + (jsTrim s).length ≤ maxChunkSize := by
        rw [hnil]
        simpa using htlen
      have h2 := ih (jsTrim s) hrest htlen
      rw [if_pos hpot, if_neg hcur]
      refine ⟨h2.1, ?_⟩
      rw [h2.2, nonWs_jsTrim, hnil]
      rfl

/-- C2 (amended): coverage and the length bound for `splitTextIntoChunks`,
for any text whose derived sentences each fit within `maxChunkLength` and
whose sentence derivation preserves the non-whitespace content. -/
theorem splitTextIntoChunks_coverage_bound (text : List Char) (maxChunkSize : ℕ)
    (hmax : 1 ≤ maxChunkSize)
    (hfit : ∀ s ∈ sentencesOf text, s.length ≤ maxChunkSize)
    (hcov : nonWs (sentencesOf text).flatten = nonWs text) :
    nonWs (sJoin ((splitTextIntoChunks text maxChunkSize).map jsTrim))
        = nonWs text ∧
    ∀ c ∈ splitTextIntoChunks text maxChunkSize, c.length ≤ maxChunkSize := by
  unfold splitTextIntoChunks
  by_cases hshort : text.length ≤ maxChunkSize
  · rw [if_pos hshort]
    constructor
    · show nonWs (sJoin [jsTrim text]) = nonWs text
      show nonWs (jsTrim text) = nonWs text
      exact nonWs_jsTrim text
    · intro c hc
      rw [List.mem_singleton.mp hc]
      exact hshort
  · rw [if_neg hshort]
    have h2 := chunkLoop_spec maxChunkSize (sentencesOf text) [] hfit
      (by simpa using Nat.zero_le maxChunkSize)
    constructor
    · rw [nonWs_sJoin, List.map_map]
      have hmn : (List.map (nonWs ∘ jsTrim)
          ((chunkLoop maxChunkSize (sentencesOf text) []).filter
            fun c => 0 < (jsTrim c).length))
          = List.map nonWs
            ((chunkLoop maxChunkSize (sentencesOf text) []).filter
              fun c => 0 < (jsTrim c).length) := by
        apply List.map_congr_left
        intro c _
        exact nonWs_jsTrim c
      rw [hmn, flatten_nonWs_filter, h2.2, ← nonWs_flatten, hcov]
      rfl
    · intro c hc
      exact h2.1 c (List.mem_of_mem_filter hc)

/-- C9 (amended): the short-circuit of `splitTextIntoChunks` returns the
input text itself as the single chunk (not the trimmed input) whenever the
text length is within `maxChunkLength`. -/
theorem splitTextIntoChunks_short (text : List Char) (maxChunkSize : ℕ)
    (h : text.length ≤ maxChunkSize) :
    splitTextIntoChunks text maxChunkSize = [text] := by
  unfold splitTextIntoChunks
  rw [if_pos h]

/-- C2 (counterexample): the original claim fails on the code.  On
"Hello world. This is a test sentence that is quite long indeed." with
maxChunkLength 20 the segmenter emits a 50-character multi-word chunk
(an over-long sentence assigned whole when the previous chunk was
nonempty), and on "aaaa, bbbb" with maxChunkLength 5 the comma-boundary
fallback drops the comma, so the joined chunks do not reproduce the
non-whitespace content of the input. -/
theorem splitTextIntoChunks_claim_counterexample :
    (∃ c ∈ splitTextIntoChunks
      ("Hello world. This is a test sentence that is quite long indeed.".toList)
      20, 20 < c.length ∧ ' ' ∈ c) ∧
    nonWs (sJoin ((splitTextIntoChunks ("aaaa, bbbb".toList) 5).map jsTrim))
      ≠ nonWs ("aaaa, bbbb".toList) := by
  decide

/-- C2 (witness): the amended theorem applied to a concrete three-sentence
text with maxChunkLength 15. -/
theorem splitTextIntoChunks_coverage_bound_witness :
    (1 ≤ 15) ∧
    (∀ s ∈ sentencesOf ("Hello there. How are you. Fine thanks.".toList),
      s.length ≤ 15) ∧
    nonWs (sentencesOf ("Hello there. How are you. Fine thanks.".toList)).flatten
      = nonWs ("Hello there. How are you. Fine thanks.".toList) ∧
    (nonWs (sJoin ((splitTextIntoChunks
        ("Hello there. How are you. Fine thanks.".toList) 15).map jsTrim))
        = nonWs ("Hello there. How are you. Fine thanks.".toList) ∧
      ∀ c ∈ splitTextIntoChunks
        ("Hello there. How are you. Fine thanks.".toList) 15,
        c.length ≤ 15) :=
  ⟨by decide, by decide, by decide,
    splitTextIntoChunks_coverage_bound _ 15 (by decide) (by decide) (by decide)⟩

/-- C9 (counterexample): for the input `" a "` (length 3 < 10) the
segmenter returns the input unchanged, not the trimmed input the claim
describes. -/
theorem splitTextIntoChunks_short_not_trimmed :
    (" a ".toList).length < 10 ∧
    splitTextIntoChunks (" a ".toList) 10 ≠ [jsTrim (" a ".toList)] := by
  decide

/-- C9 (witness): the amended short-circuit theorem at the input `"abc"`
with maxChunkLength 10. -/
theorem splitTextIntoChunks_short_witness :
    ("abc".toList).length ≤ 10 ∧
    splitTextIntoChunks ("abc".toList) 10 = ["abc".toList] :=
  ⟨by decide, splitTextIntoChunks_short ("abc".toList) 10 (by decide)⟩

end StringUtils

/-! ## Audio stitcher (`src/services/audio-stitcher.ts`)

An `AudioChunk` is a Float32 sample buffer with a sampling rate; samples
and rates are modelled as rationals (the claims settled here involve only
copying, counting and exact division, not float rounding).  The chunk's
`save(path)` capability and the stitcher's file writes are modelled as an
ordered trace of filesystem operations. -/

structure AudioChunk where
  audio : List ℚ
  sampling_rate : ℚ
deriving DecidableEq

structure StitchOptions where
  outputPath : String
  keepChunks : Bool := false
  chunkDir : Option String := none
  tempDir : Option String := none

structure StitchResult where
  outputPath : String
  chunkPaths : Option (List String)
  totalDuration : ℚ
  totalSamples : ℕ
deriving DecidableEq

inductive StitchError where
  | emptyInput
  | sampleRateMismatch (expected got : ℚ)
deriving DecidableEq

/-- Filesystem effects performed by the audio services, in order:
a chunk's own `save(path)`, a raw WAV write of a sample buffer, a
`mkdir -p`, and a rename. -/
inductive FsOp where
  | chunkSave (path : String) (chunk : AudioChunk)
  | writeFile (path : String) (samples : List ℚ) (rate : ℚ)
  | mkdir (path : String)
  | rename (src dst : String)
deriving DecidableEq

/-- `path.dirname` for the flat paths used here: everything before the
last `/`, or `.` when there is no slash. -/
def dirnameStr (s : String) : String :=
  if '/' ∈ s.toList then
    String.mk (((s.toList.reverse.dropWhile (fun c => c ≠ '/')).drop 1).reverse)
  else "."

/-- Zero-padded chunk number, `(i + 1).toString().padStart(3, '0')`. -/
def padStart3 (n : ℕ) : String :=
  if n < 10 then "00" ++ toString n
  else if n < 100 then "0" ++ toString n
  else toString n

namespace AudioStitcher

/-- The per-chunk persistence of `saveIndividualChunks`: each input chunk
is saved as `chunk_NNN.wav` in `chunkDir`, in order. -/
def saveIndividualChunks (audioChunks : List AudioChunk) (chunkDir : String) :
    List FsOp × List String :=
  let paths := (List.range audioChunks.length).map
    (fun i => chunkDir ++ "/chunk_" ++ padStart3 (i + 1) ++ ".wav")
  ((paths.zip audioChunks).map (fun pc => FsOp.chunkSave pc.1 pc.2), paths)

/-- The combine step: one buffer filled by copying each chunk's samples at
the running offset (`combinedAudio.set(chunk.audio, offset)`). -/
def combineAudio (audioChunks : List AudioChunk) : List ℚ :=
  audioChunks.foldl (fun acc c => acc ++ c.audio) []

/-- The main-output writes of `stitchChunks`: via the temp directory (write
then rename into place) when one is supplied, otherwise a direct write. -/
def stitchWriteOps (combined : List ℚ) (sampleRate : ℚ) (outputPath : String)
    (tempDir : Option String) (now : ℤ) : List FsOp :=
  match tempDir with
  | some td =>
    [FsOp.mkdir td,
      FsOp.writeFile (td ++ "/stitched_" ++ toString now ++ ".wav")
        combined sampleRate,
      FsOp.mkdir (dirnameStr outputPath),
      FsOp.rename (td ++ "/stitched_" ++ toString now ++ ".wav") outputPath]
  | none =>
    [FsOp.mkdir (dirnameStr outputPath),
      FsOp.writeFile outputPath combined sampleRate]

/-- The optional per-chunk persistence of `stitchChunks`: performed only
when both `keepChunks` and `chunkDir` are supplied. -/
def stitchKeep (audioChunks : List AudioChunk) (keepChunks : Bool)
    (chunkDir : Option String) : List FsOp × Option (List String) :=
  match keepChunks, chunkDir with
  | true, some cd =>
    let saved := saveIndividualChunks audioChunks cd
    (FsOp.mkdir cd :: saved.1, some saved.2)
  | _, _ => ([], none)

/-- `AudioStitcher.stitchChunks`.  Returns the ordered trace of filesystem
operations together with the result or the thrown error.  `now` stands for
`Date.now()` in the temp-file name. -/
def stitchChunks (audioChunks : List AudioChunk) (options : StitchOptions)
    (now : ℤ) : List FsOp × Except StitchError StitchResult :=
  match audioChunks with
  | [] => ([], .error .emptyInput)
  | [c] =>
    ([FsOp.chunkSave options.outputPath c],
      .ok { outputPath := options.outputPath
            chunkPaths := none
            totalDuration := (c.audio.length : ℚ) / c.sampling_rate
            totalSamples := c.audio.length })
  | c0 :: c1 :: rest =>
    match (c0 :: c1 :: rest).find?
        (fun c => c.sampling_rate ≠ c0.sampling_rate) with
    | some bad =>
      ([], .error (.sampleRateMismatch c0.sampling_rate bad.sampling_rate))
    | none =>
      (stitchWriteOps (combineAudio (c0 :: c1 :: rest)) c0.sampling_rate
          options.outputPath options.tempDir now
        ++ (stitchKeep (c0 :: c1 :: rest) options.keepChunks
            options.chunkDir).1,
        .ok { outputPath := options.outputPath
              chunkPaths := (stitchKeep (c0 :: c1 :: rest) options.keepChunks
                options.chunkDir).2
              totalDuration :=
                (((c0 :: c1 :: rest).map (fun c => c.audio.length)).sum : ℚ)
                  / c0.sampling_rate
              totalSamples :=
                ((c0 :: c1 :: rest).map (fun c => c.audio.length)).sum })

theorem combineAudio_eq_flatten (audioChunks : List AudioChunk) :
    combineAudio audioChunks = (audioChunks.map (fun c => c.audio)).flatten := by
  suffices h : ∀ acc : List ℚ, audioChunks.foldl (fun acc c => acc ++ c.audio) acc
      = acc ++ (audioChunks.map (fun c => c.audio)).flatten by
    simpa using h []
  induction audioChunks with
  | nil => intro acc; simp
  | cons c cs ih =>
    intro acc
    rw [List.foldl_cons, ih, List.map_cons, List.flatten_cons, List.append_assoc]

theorem find?_rate_eq_none (c0 : AudioChunk) (chunks : List AudioChunk)
    (r : ℚ) (hr0 : c0.sampling_rate = r)
    (hr : ∀ c ∈ chunks, c.sampling_rate = r) :
    chunks.find? (fun c => c.sampling_rate ≠ c0.sampling_rate) = none := by
  rw [List.find?_eq_none]
  intro x hx
  simp [hr x hx, hr0]

theorem stitchChunks_of_uniform (c0 c1 : AudioChunk) (rest : List AudioChunk)
    (options : StitchOptions) (now : ℤ)
    (hfind : (c0 :: c1 :: rest).find?
      (fun c => c.sampling_rate ≠ c0.sampling_rate) = none) :
    stitchChunks (c0 :: c1 :: rest) options now =
      (stitchWriteOps (combineAudio (c0 :: c1 :: rest)) c0.sampling_rate
          options.outputPath options.tempDir now
        ++ (stitchKeep (c0 :: c1 :: rest) options.keepChunks
            options.chunkDir).1,
        .ok { outputPath := options.outputPath
              chunkPaths := (stitchKeep (c0 :: c1 :: rest) options.keepChunks
                options.chunkDir).2
              totalDuration :=
                (((c0 :: c1 :: rest).map (fun c => c.audio.length)).sum : ℚ)
                  / c0.sampling_rate
              totalSamples :=
                ((c0 :: c1 :: rest).map (fun c => c.audio.length)).sum }) := by
  simp only [stitchChunks, hfind]

theorem writeFile_mem_stitchWriteOps (combined : List ℚ) (sampleRate : ℚ)
    (outputPath : String) (tempDir : Option String) (now : ℤ) :
    ∃ p, FsOp.writeFile p combined sampleRate
      ∈ stitchWriteOps combined sampleRate outputPath tempDir now := by
  cases tempDir with
  | none => exact ⟨outputPath, by simp [stitchWriteOps]⟩
  | some td =>
    exact ⟨td ++ "/stitched_" ++ toString now ++ ".wav", by simp [stitchWriteOps]⟩

theorem writeFile_eq_of_mem_stitchWriteOps (combined : List ℚ) (sampleRate : ℚ)
    (outputPath : String) (tempDir : Option String) (now : ℤ)
    (p : String) (s : List ℚ) (rr : ℚ)
    (h : FsOp.writeFile p s rr
      ∈ stitchWriteOps combined sampleRate outputPath tempDir now) :
    s = combined ∧ rr = sampleRate := by
  cases tempDir with
  | none =>
    simp only [stitchWriteOps, List.mem_cons, List.not_mem_nil, or_false] at h
    rcases h with h | h
    · exact FsOp.noConfusion h
    · injection h with h1 h2 h3
      exact ⟨h2, h3⟩
  | some td =>
    simp only [stitchWriteOps, List.mem_cons, List.not_mem_nil, or_false] at h
    rcases h with h | h | h | h
    · exact FsOp.noConfusion h
    · injection h with h1 h2 h3
      exact ⟨h2, h3⟩
    · exact FsOp.noConfusion h
    · exact FsOp.noConfusion h

theorem writeFile_not_mem_stitchKeep (audioChunks : List AudioChunk)
    (keepChunks : Bool) (chunkDir : Option String)
    (p : String) (s : List ℚ) (rr : ℚ) :
    FsOp.writeFile p s rr ∉ (stitchKeep audioChunks keepChunks chunkDir).1 := by
  intro h
  cases keepChunks <;> cases chunkDir <;>
    simp only [stitchKeep, List.not_mem_nil, List.mem_cons] at h
  rcases h with h | h
  · exact FsOp.noConfusion h
  · simp only [saveIndividualChunks, List.mem_map] at h
    obtain ⟨pc, _, hpc⟩ := h
    exact FsOp.noConfusion hpc

/-- C3: stitching two or more chunks sharing one sample rate succeeds; the
single combined sample buffer written is exactly the concatenation of the
input chunks' samples in input order, `totalSamples` is the sum of the
chunks' sample counts and `totalDuration` is that sum divided by the rate. -/
theorem stitchChunks_multi (audioChunks : List AudioChunk)
    (options : StitchOptions) (now : ℤ) (r : ℚ)
    (hlen : 2 ≤ audioChunks.length)
    (hr : ∀ c ∈ audioChunks, c.sampling_rate = r) :
    ∃ res : StitchResult,
      (stitchChunks audioChunks options now).2 = .ok res ∧
      res.totalSamples = (audioChunks.map (fun c => c.audio.length)).sum ∧
      res.totalDuration
        = ((audioChunks.map (fun c => c.audio.length)).sum : ℚ) / r ∧
      (∃ p, FsOp.writeFile p ((audioChunks.map (fun c => c.audio)).flatten) r
        ∈ (stitchChunks audioChunks options now).1) ∧
      (∀ p s rr, FsOp.writeFile p s rr ∈ (stitchChunks audioChunks options now).1 →
        s = (audioChunks.map (fun c => c.audio)).flatten ∧ rr = r) := by
  match audioChunks, hlen with
  | c0 :: c1 :: rest, _ =>
  have hr0 : c0.sampling_rate = r := hr c0 (List.mem_cons_self ..)
  have hfind := find?_rate_eq_none c0 (c0 :: c1 :: rest) r hr0 hr
  have hcomb : combineAudio (c0 :: c1 :: rest)
      = ((c0 :: c1 :: rest).map (fun c => c.audio)).flatten :=
    combineAudio_eq_flatten _
  rw [stitchChunks_of_uniform c0 c1 rest options now hfind, hcomb, hr0]
  refine ⟨_, rfl, rfl, rfl, ?_, ?_⟩
  · obtain ⟨p, hp⟩ := writeFile_mem_stitchWriteOps
      ((c0 :: c1 :: rest).map (fun c => c.audio)).flatten r
      options.outputPath options.tempDir now
    exact ⟨p, List.mem_append_left _ hp⟩
  · intro p s rr hmem
    rcases List.mem_append.mp hmem with h | h
    · exact writeFile_eq_of_mem_stitchWriteOps _ _ _ _ _ _ _ _ h
    · exact absurd h (writeFile_not_mem_stitchKeep _ _ _ _ _ _)

/-- C3 (witness): the multi-chunk theorem at two concrete chunks sharing
sample rate 4. -/
theorem stitchChunks_multi_witness :
    2 ≤ ([⟨[1, 2], 4⟩, ⟨[3], 4⟩] : List AudioChunk).length ∧
    (∀ c ∈ ([⟨[1, 2], 4⟩, ⟨[3], 4⟩] : List AudioChunk), c.sampling_rate = 4) ∧
    (∃ res : StitchResult,
      (stitchChunks [⟨[1, 2], 4⟩, ⟨[3], 4⟩]
        { outputPath := "out.wav" } 0).2 = .ok res ∧
      res.totalSamples
        = (([⟨[1, 2], 4⟩, ⟨[3], 4⟩] : List AudioChunk).map
            (fun c => c.audio.length)).sum ∧
      res.totalDuration
        = ((([⟨[1, 2], 4⟩, ⟨[3], 4⟩] : List AudioChunk).map
            (fun c => c.audio.length)).sum : ℚ) / 4 ∧
      (∃ p, FsOp.writeFile p
          (((⟨[1, 2], 4⟩ : AudioChunk) :: [⟨[3], 4⟩]).map
            (fun c => c.audio)).flatten 4
        ∈ (stitchChunks [⟨[1, 2], 4⟩, ⟨[3], 4⟩] { outputPath := "out.wav" } 0).1) ∧
      (∀ p s rr, FsOp.writeFile p s rr
          ∈ (stitchChunks [⟨[1, 2], 4⟩, ⟨[3], 4⟩]
            { outputPath := "out.wav" } 0).1 →
        s = (([⟨[1, 2], 4⟩, ⟨[3], 4⟩] : List AudioChunk).map
          (fun c => c.audio)).flatten ∧ rr = 4)) :=
  ⟨by decide, by decide,
    stitchChunks_multi [⟨[1, 2], 4⟩, ⟨[3], 4⟩] { outputPath := "out.wav" } 0 4
      (by decide) (by decide)⟩

/-- C8: stitching two or more chunks with a sampling rate differing from
the first chunk's throws `SampleRateMismatch` (reporting the expected rate)
and performs no filesystem write at all (neither the output path nor any
temp path is touched). -/
theorem stitchChunks_rate_mismatch (c0 c1 : AudioChunk)
    (rest : List AudioChunk) (options : StitchOptions) (now : ℤ)
    (h : ∃ c ∈ c0 :: c1 :: rest, c.sampling_rate ≠ c0.sampling_rate) :
    ∃ badRate, stitchChunks (c0 :: c1 :: rest) options now
      = ([], .error (.sampleRateMismatch c0.sampling_rate badRate)) := by
  have hsome : ((c0 :: c1 :: rest).find?
      (fun c => c.sampling_rate ≠ c0.sampling_rate)).isSome := by
    rw [List.find?_isSome]
    obtain ⟨c, hc, hne⟩ := h
    exact ⟨c, hc, by simpa using hne⟩
  obtain ⟨bad, hbad⟩ := Option.isSome_iff_exists.mp hsome
  exact ⟨bad.sampling_rate, by simp only [stitchChunks, hbad]⟩

/-- C8 (witness): the rate-mismatch theorem at two concrete chunks with
rates 4 and 5. -/
theorem stitchChunks_rate_mismatch_witness :
    (∃ c ∈ (⟨[1], 4⟩ : AudioChunk) :: [⟨[2], 5⟩],
      c.sampling_rate ≠ (⟨[1], 4⟩ : AudioChunk).sampling_rate) ∧
    ∃ badRate, stitchChunks [⟨[1], 4⟩, ⟨[2], 5⟩]
        { outputPath := "out.wav", tempDir := some "tmp" } 0
      = ([], .error (.sampleRateMismatch
          (⟨[1], 4⟩ : AudioChunk).sampling_rate badRate)) :=
  ⟨by decide,
    stitchChunks_rate_mismatch ⟨[1], 4⟩ ⟨[2], 5⟩ []
      { outputPath := "out.wav", tempDir := some "tmp" } 0 (by decide)⟩

/-- C10: calling `stitchChunks` with exactly one chunk takes the fast
path: the result is `ok` regardless of rates, the only filesystem effect
is the chunk's own `save(outputPath)` (no numbered per-chunk file, whatever
`keepChunks`/`chunkDir` say), `chunkPaths` is `none`, and the totals come
from that single chunk. -/
theorem stitchChunks_single (c : AudioChunk) (options : StitchOptions)
    (now : ℤ) :
    stitchChunks [c] options now
      = ([FsOp.chunkSave options.outputPath c],
        .ok { outputPath := options.outputPath
              chunkPaths := none
              totalDuration := (c.audio.length : ℚ) / c.sampling_rate
              totalSamples := c.audio.length }) :=
  rfl

end AudioStitcher

namespace AudioService

/-- Model of the persistence step of `AudioService.streamAudio`
(`src/services/audio.ts`): all streamed chunks are collected, then only
the LAST chunk is saved to the output path ("For now, just use the last
chunk"). -/
def streamAudioSave (chunks : List AudioChunk) (outputPath : String) :
    List FsOp :=
  match chunks.getLast? with
  | some last => [FsOp.mkdir (dirnameStr outputPath),
      FsOp.chunkSave outputPath last]
  | none => []

/-- C7: evaluating the streaming persistence path on a two-chunk stream
shows it saves only the second chunk, whose samples are not the ordered
concatenation of both chunks' samples — the code discards all chunks but
the last instead of concatenating them. -/
theorem streamAudio_discards_all_but_last :
    streamAudioSave [⟨[1, 2], 24000⟩, ⟨[3, 4], 24000⟩] "out.wav"
      = [FsOp.mkdir ".", FsOp.chunkSave "out.wav" ⟨[3, 4], 24000⟩] ∧
    (⟨[3, 4], 24000⟩ : AudioChunk).audio
      ≠ (([⟨[1, 2], 24000⟩, ⟨[3, 4], 24000⟩] : List AudioChunk).map
          (fun c => c.audio)).flatten := by
  decide

end AudioService

/-! ## Cache service (`src/services/cache.ts`)

The SHA-256 fingerprint of the deterministic JSON serialization of
`{text, voice, options: normalized}` is modelled by the normalized tuple
itself (the serialization is injective, and no claim depends on hash
collisions).  The filesystem holds payload files: cached entry audio and
metadata files (one conceptual directory per key) and caller-supplied
external files; the `index.json`/`stats.json` snapshots, which no claim
inspects, are kept in the state rather than on the modelled filesystem.
JS timestamps and byte sizes are `ℤ`, counters are `ℕ`. -/

/-- A cache fingerprint: the normalized `(text, voice, speed, temperature)`
tuple. -/
abbrev Key := String × String × ℚ × ℚ

/-- The generation-affecting options of `Partial<GenerationOptions>`. -/
structure GenOptions where
  speed : Option ℚ := none
  temperature : Option ℚ := none
deriving DecidableEq

/-- Paths: an entry's `audio.wav`, an entry's `metadata.json` (the two
files of `entries/<fingerprint>/`), or a caller-supplied path. -/
inductive CPath where
  | entryAudio (key : Key)
  | entryMeta (key : Key)
  | external (path : String)
deriving DecidableEq

/-- The payload filesystem: an association of paths to byte contents. -/
abbrev Fs := List (CPath × List ℕ)

def fsLookup (fs : Fs) (p : CPath) : Option (List ℕ) :=
  (fs.find? (fun q => q.1 = p)).map (fun q => q.2)

def fsWrite (fs : Fs) (p : CPath) (b : List ℕ) : Fs :=
  (p, b) :: fs.filter (fun q => q.1 ≠ p)

/-- The directory a path lives in: the entry directory of its key, or the
`dirname` of an external path. -/
def dirTag : CPath → Key ⊕ String
  | .entryAudio k => .inl k
  | .entryMeta k => .inl k
  | .external s => .inr (dirnameStr s)

/-- `fs.rm(path.dirname(filePath), { recursive: true })`: drop every file
inside that directory. -/
def rmEntryDir (fs : Fs) (filePath : CPath) : Fs :=
  fs.filter (fun q => dirTag q.1 ≠ dirTag filePath)

/-- `CacheEntry` of `src/services/cache.ts`. -/
structure CacheEntry where
  key : Key
  text : String
  voice : String
  options : GenOptions
  filePath : CPath
  createdAt : ℤ
  accessedAt : ℤ
  size : ℕ
deriving DecidableEq

/-- `CacheStats` of `src/services/cache.ts`. -/
structure CacheStats where
  hits : ℕ
  misses : ℕ
  totalEntries : ℕ
  totalSize : ℤ
  hitRate : ℚ
deriving DecidableEq

/-- The whole `CacheService` instance state: config, index (an insertion-
ordered record of fingerprint → entry, as JS objects enumerate), and
stats. -/
structure CacheState where
  enabled : Bool
  maxSize : ℤ
  maxAge : ℤ
  maxEntries : ℤ
  entries : List (Key × CacheEntry)
  totalSize : ℤ
  lastCleanup : ℤ
  hits : ℕ
  misses : ℕ
  statsTotalEntries : ℕ
  statsTotalSize : ℤ
  statsHitRate : ℚ
deriving DecidableEq

/-- `index.entries[key]` lookup. -/
def lookupEntry (es : List (Key × CacheEntry)) (k : Key) : Option CacheEntry :=
  (es.find? (fun p => p.1 = k)).map (fun p => p.2)

/-- `index.entries[key] = entry`: overwrite in place, or append as the
newest insertion. -/
def setEntry : List (Key × CacheEntry) → Key → CacheEntry →
    List (Key × CacheEntry)
  | [], k, e => [(k, e)]
  | p :: rest, k, e =>
    if p.1 = k then (k, e) :: rest else p :: setEntry rest k e

/-- `delete index.entries[key]`. -/
def removeKey (es : List (Key × CacheEntry)) (k : Key) :
    List (Key × CacheEntry) :=
  es.filter (fun p => p.1 ≠ k)

/-- `entry.accessedAt = Date.now()` on a hit (in-place index mutation). -/
def touchEntry (es : List (Key × CacheEntry)) (k : Key) (now : ℤ) :
    List (Key × CacheEntry) :=
  es.map (fun p => if p.1 = k then (p.1, { p.2 with accessedAt := now }) else p)

/-- Sum of the `size` fields over the live index entries. -/
def sumSizes (es : List (Key × CacheEntry)) : ℤ :=
  (es.map (fun p => (p.2.size : ℤ))).sum

/-- Sum of the `size` fields over a plain entry list. -/
def sumSizesL (l : List CacheEntry) : ℤ :=
  (l.map (fun e => (e.size : ℤ))).sum

namespace CacheService

/-- `options.speed || 1.0` (JS: 0 is falsy). -/
def normalizeSpeed (options : GenOptions) : ℚ :=
  match options.speed with
  | some s => if s = 0 then 1 else s
  | none => 1

/-- The default temperature `0.7`, written as an explicit reduced rational
(avoiding `Rat` division, which the kernel cannot evaluate). -/
def defaultTemperature : ℚ := ⟨7, 10, by decide, by decide⟩

/-- `options.temperature || 0.7` (JS: 0 is falsy). -/
def normalizeTemperature (options : GenOptions) : ℚ :=
  match options.temperature with
  | some t => if t = 0 then defaultTemperature else t
  | none => defaultTemperature

/-- `generateCacheKey`: the fingerprint of the normalized tuple. -/
def generateCacheKey (text voice : String) (options : GenOptions) : Key :=
  (text, voice, normalizeSpeed options, normalizeTemperature options)

/-- `updateStats`: recompute the stats snapshot from the index (the
asynchronous best-effort save of `stats.json` has no modelled effect). -/
def updateStats (st : CacheState) : CacheState :=
  { st with
    statsTotalEntries := st.entries.length
    statsTotalSize := st.totalSize
    statsHitRate :=
      if 0 < st.hits + st.misses
      then (st.hits : ℚ) / ((st.hits : ℚ) + (st.misses : ℚ))
      else 0 }

/-- `getStats`: a read-only copy of the stats counters. -/
def getStats (st : CacheState) : CacheStats :=
  { hits := st.hits
    misses := st.misses
    totalEntries := st.statsTotalEntries
    totalSize := st.statsTotalSize
    hitRate := st.statsHitRate }

/-- `deleteEntry`: remove the entry's directory (best effort), subtract its
size from the running total, and delete the index binding. -/
def deleteEntry (st : CacheState) (fs : Fs) (k : Key) : CacheState × Fs :=
  match lookupEntry st.entries k with
  | none => (st, fs)
  | some e =>
    ({ st with
        entries := removeKey st.entries k
        totalSize := st.totalSize - e.size },
      rmEntryDir fs e.filePath)

/-- Stable insertion by ascending `accessedAt` (an element is placed before
the first strictly-later-or-equal element it precedes in the original
order), matching JS's stable `sort((a, b) => a.accessedAt - b.accessedAt)`. -/
def insertByAccess (e : CacheEntry) : List CacheEntry → List CacheEntry
  | [] => [e]
  | x :: xs =>
    if e.accessedAt ≤ x.accessedAt then e :: x :: xs
    else x :: insertByAccess e xs

/-- Stable sort by ascending `accessedAt`. -/
def sortByAccess : List CacheEntry → List CacheEntry
  | [] => []
  | e :: rest => insertByAccess e (sortByAccess rest)

/-- The size-constraint loop of `enforceConstraints`:
`while (totalSize > maxSize && entries.length > 0) { shift; delete }`.
Returns the state, the filesystem and the remaining (unshifted) array. -/
def sizeLoop : CacheState → Fs → List CacheEntry →
    CacheState × Fs × List CacheEntry
  | st, fs, [] => (st, fs, [])
  | st, fs, e :: rest =>
    if st.maxSize < st.totalSize then
      let d := deleteEntry st fs e.key
      sizeLoop d.1 d.2 rest
    else (st, fs, e :: rest)

/-- The count-constraint loop of `enforceConstraints`:
`while (entries.length > maxEntries) { shift; delete }`. -/
def countLoop : CacheState → Fs → List CacheEntry → CacheState × Fs
  | st, fs, [] => (st, fs)
  | st, fs, e :: rest =>
    if st.maxEntries < ((e :: rest).length : ℤ) then
      let d := deleteEntry st fs e.key
      countLoop d.1 d.2 rest
    else (st, fs)

/-- `enforceConstraints`: evict least-recently-accessed entries while over
the size budget, then (on the remaining snapshot array) while over the
entry-count budget. -/
def enforceConstraints (st : CacheState) (fs : Fs) : CacheState × Fs :=
  if st.maxSize < st.totalSize then
    let r := sizeLoop st fs (sortByAccess (st.entries.map (fun p => p.2)))
    if r.1.maxEntries < (r.2.2.length : ℤ) then
      countLoop r.1 r.2.1 (sortByAccess r.2.2)
    else (r.1, r.2.1)
  else
    if st.maxEntries < (st.entries.length : ℤ) then
      countLoop st fs (sortByAccess (st.entries.map (fun p => p.2)))
    else (st, fs)

/-- `CacheService.set`: copy the payload into the entry directory, record
its size, write the metadata file (its JSON content is not modelled),
insert/overwrite the entry, add the new size to the running total, enforce
constraints, and refresh stats.  A missing source file makes `copyFile`
throw; the catch block leaves the state unchanged. -/
def set (st : CacheState) (fs : Fs) (now : ℤ) (text voice : String)
    (audioFilePath : CPath) (options : GenOptions) : CacheState × Fs :=
  if st.enabled = false then (st, fs)
  else
    match fsLookup fs audioFilePath with
    | none => (st, fs)
    | some bytes =>
      let k := generateCacheKey text voice options
      let entry : CacheEntry :=
        { key := k
          text := text
          voice := voice
          options := options
          filePath := CPath.entryAudio k
          createdAt := now
          accessedAt := now
          size := bytes.length }
      let fs1 := fsWrite (fsWrite fs (CPath.entryAudio k) bytes)
        (CPath.entryMeta k) []
      let st1 := { st with
        entries := setEntry st.entries k entry
        totalSize := st.totalSize + bytes.length }
      let r := enforceConstraints st1 fs1
      (updateStats r.1, r.2)

/-- `CacheService.get`: miss on an absent key; expiry (age beyond
`maxAge`) and a missing payload file each delete the entry and count as a
miss; otherwise update `accessedAt`, count a hit and return the payload
path. -/
def get (st : CacheState) (fs : Fs) (now : ℤ) (text voice : String)
    (options : GenOptions) : Option CPath × CacheState × Fs :=
  if st.enabled = false then (none, st, fs)
  else
    let k := generateCacheKey text voice options
    match lookupEntry st.entries k with
    | none => (none, updateStats { st with misses := st.misses + 1 }, fs)
    | some e =>
      if st.maxAge < now - e.createdAt then
        let d := deleteEntry st fs k
        (none, updateStats { d.1 with misses := d.1.misses + 1 }, d.2)
      else
        match fsLookup fs e.filePath with
        | some _ =>
          (some e.filePath,
            updateStats
              { st with
                entries := touchEntry st.entries k now
                hits := st.hits + 1 },
            fs)
        | none =>
          let d := deleteEntry st fs k
          (none, updateStats { d.1 with misses := d.1.misses + 1 }, d.2)

end CacheService

/-- A fresh enabled cache state with a roomy configuration, over an
filesystem holding one generated 3-byte payload. -/
def demoState : CacheState :=
  { enabled := true
    maxSize := 1000000
    maxAge := 1000000
    maxEntries := 1000
    entries := []
    totalSize := 0
    lastCleanup := 0
    hits := 0
    misses := 0
    statsTotalEntries := 0
    statsTotalSize := 0
    statsHitRate := 0 }

def demoFs : Fs := [(CPath.external "gen.wav", [1, 2, 3])]

namespace CacheService

/-! ### Index association-list lemmas -/

theorem lookupEntry_mem {es : List (Key × CacheEntry)} {k : Key}
    {e : CacheEntry} (h : lookupEntry es k = some e) : (k, e) ∈ es := by
  unfold lookupEntry at h
  cases hf : es.find? (fun p => p.1 = k) with
  | none => rw [hf] at h; cases h
  | some q =>
    rw [hf] at h
    have hq : q.1 = k := by simpa using List.find?_some hf
    have he : q.2 = e := by simpa using h
    have hm := List.mem_of_find?_eq_some hf
    have : q = (k, e) := Prod.ext hq he
    rwa [this] at hm

theorem mem_keys_of_lookup {es : List (Key × CacheEntry)} {k : Key}
    {e : CacheEntry} (h : lookupEntry es k = some e) :
    k ∈ es.map (fun p => p.1) :=
  List.mem_map.mpr ⟨(k, e), lookupEntry_mem h, rfl⟩

theorem lookupEntry_eq_none {es : List (Key × CacheEntry)} {k : Key}
    (h : k ∉ es.map (fun p => p.1)) : lookupEntry es k = none := by
  unfold lookupEntry
  have : es.find? (fun p => p.1 = k) = none := by
    rw [List.find?_eq_none]
    intro x hx
    simp only [decide_eq_true_eq]
    intro hq
    exact h (List.mem_map.mpr ⟨x, hx, hq⟩)
  rw [this]
  rfl

theorem lookupEntry_of_mem {es : List (Key × CacheEntry)} {k : Key}
    {e : CacheEntry} (hnd : (es.map (fun p => p.1)).Nodup)
    (hm : (k, e) ∈ es) : lookupEntry es k = some e := by
  induction es with
  | nil => cases hm
  | cons p rest ih =>
    rcases List.mem_cons.mp hm with h | h
    · rw [← h]
      unfold lookupEntry
      rw [List.find?_cons_of_pos _ (by simp)]
      rfl
    · have hk : k ∈ rest.map (fun p => p.1) :=
        List.mem_map.mpr ⟨(k, e), h, rfl⟩
      have hne : ¬(p.1 = k) := by
        intro hq
        have hnd2 : (p.1 :: rest.map (fun p => p.1)).Nodup := by simpa using hnd
        exact (List.nodup_cons.mp hnd2).1 (hq ▸ hk)
      unfold lookupEntry
      rw [List.find?_cons_of_neg _ (by simpa using hne)]
      exact ih (by
        have hnd2 : (p.1 :: rest.map (fun p => p.1)).Nodup := by simpa using hnd
        exact (List.nodup_cons.mp hnd2).2) h

theorem lookupEntry_removeKey_self (es : List (Key × CacheEntry)) (k : Key) :
    lookupEntry (removeKey es k) k = none := by
  apply lookupEntry_eq_none
  intro hk
  obtain ⟨p, hp, hpk⟩ := List.mem_map.mp hk
  have := (List.mem_filter.mp hp).2
  simp only [hpk, decide_eq_true_eq] at this
  exact this rfl

theorem lookupEntry_removeKey_ne (es : List (Key × CacheEntry)) (k k' : Key)
    (h : k' ≠ k) : lookupEntry (removeKey es k) k' = lookupEntry es k' := by
  induction es with
  | nil => rfl
  | cons p rest ih =>
    by_cases hp : p.1 = k
    · have h1 : removeKey (p :: rest) k = removeKey rest k := by
        unfold removeKey
        rw [List.filter_cons_of_neg (by simp [hp])]
      have h2 : lookupEntry (p :: rest) k' = lookupEntry rest k' := by
        unfold lookupEntry
        rw [List.find?_cons_of_neg _ (by simp [hp, Ne.symm h])]
      rw [h1, h2, ih]
    · have h1 : removeKey (p :: rest) k = p :: removeKey rest k := by
        unfold removeKey
        rw [List.filter_cons_of_pos (by simp [hp])]
      by_cases hp' : p.1 = k'
      · rw [h1]
        unfold lookupEntry
        rw [List.find?_cons_of_pos _ (by simp [hp']),
          List.find?_cons_of_pos _ (by simp [hp'])]
      · rw [h1]
        unfold lookupEntry
        rw [List.find?_cons_of_neg _ (by simp [hp']),
          List.find?_cons_of_neg _ (by simp [hp'])]
        exact ih

theorem keys_removeKey (es : List (Key × CacheEntry)) (k : Key) :
    (removeKey es k).map (fun p => p.1)
      = (es.map (fun p => p.1)).filter (fun q => q ≠ k) := by
  induction es with
  | nil => rfl
  | cons p rest ih =>
    by_cases hp : p.1 = k
    · unfold removeKey
      rw [List.filter_cons_of_neg (by simp [hp]), List.map_cons,
        List.filter_cons_of_neg (by simp [hp])]
      exact ih
    · unfold removeKey
      rw [List.filter_cons_of_pos (by simp [hp]), List.map_cons,
        List.map_cons, List.filter_cons_of_pos (by simp [hp])]
      rw [← ih]
      rfl

theorem nodup_keys_removeKey {es : List (Key × CacheEntry)} (k : Key)
    (hnd : (es.map (fun p => p.1)).Nodup) :
    ((removeKey es k).map (fun p => p.1)).Nodup := by
  rw [keys_removeKey]
  exact hnd.filter _

theorem length_removeKey_add_one {es : List (Key × CacheEntry)} {k : Key}
    (hnd : (es.map (fun p => p.1)).Nodup)
    (hk : k ∈ es.map (fun p => p.1)) :
    (removeKey es k).length + 1 = es.length := by
  induction es with
  | nil => cases hk
  | cons p rest ih =>
    have hnd2 : (p.1 :: rest.map (fun p => p.1)).Nodup := by simpa using hnd
    have hnd' := List.nodup_cons.mp hnd2
    by_cases hp : p.1 = k
    · have hrest : removeKey (p :: rest) k = removeKey rest k := by
        unfold removeKey
        rw [List.filter_cons_of_neg (by simp [hp])]
      have hnk : k ∉ rest.map (fun p => p.1) := hp ▸ hnd'.1
      have : removeKey rest k = rest := by
        unfold removeKey
        apply List.filter_eq_self.mpr
        intro x hx
        simp only [decide_eq_true_eq]
        intro hq
        exact hnk (List.mem_map.mpr ⟨x, hx, hq⟩)
      rw [hrest, this]
      simp
    · have hrest : removeKey (p :: rest) k = p :: removeKey rest k := by
        unfold removeKey
        rw [List.filter_cons_of_pos (by simp [hp])]
      have hk' : k ∈ rest.map (fun p => p.1) := by
        rcases List.mem_map.mp hk with ⟨q, hq, hqk⟩
        rcases List.mem_cons.mp hq with h | h
        · exact absurd (h ▸ hqk) hp
        · exact List.mem_map.mpr ⟨q, h, hqk⟩
      rw [hrest]
      simp only [List.length_cons]
      have := ih hnd'.2 hk'
      omega

theorem sumSizes_removeKey {es : List (Key × CacheEntry)} {k : Key}
    {e : CacheEntry} (hnd : (es.map (fun p => p.1)).Nodup)
    (h : lookupEntry es k = some e) :
    sumSizes (removeKey es k) = sumSizes es - e.size := by
  induction es with
  | nil => cases h
  | cons p rest ih =>
    have hnd2 : (p.1 :: rest.map (fun p => p.1)).Nodup := by simpa using hnd
    have hnd' := List.nodup_cons.mp hnd2
    by_cases hp : p.1 = k
    · have hpe : p.2 = e := by
        unfold lookupEntry at h
        rw [List.find?_cons_of_pos _ (by simp [hp])] at h
        simpa using h
      have hrest : removeKey (p :: rest) k = removeKey rest k := by
        unfold removeKey
        rw [List.filter_cons_of_neg (by simp [hp])]
      have hnk : k ∉ rest.map (fun p => p.1) := hp ▸ hnd'.1
      have hid : removeKey rest k = rest := by
        unfold removeKey
        apply List.filter_eq_self.mpr
        intro x hx
        simp only [decide_eq_true_eq]
        intro hq
        exact hnk (List.mem_map.mpr ⟨x, hx, hq⟩)
      rw [hrest, hid]
      unfold sumSizes
      rw [List.map_cons, List.sum_cons, hpe]
      ring
    · have hrest : removeKey (p :: rest) k = p :: removeKey rest k := by
        unfold removeKey
        rw [List.filter_cons_of_pos (by simp [hp])]
      have h' : lookupEntry rest k = some e := by
        unfold lookupEntry at h ⊢
        rwa [List.find?_cons_of_neg _ (by simp [hp])] at h
      rw [hrest]
      unfold sumSizes at ih ⊢
      rw [List.map_cons, List.sum_cons, List.map_cons, List.sum_cons,
        ih hnd'.2 h']
      ring

end CacheService

/-- Two cache states agreeing on configuration and on the hit/miss
counters (entry deletion touches neither). -/
structure CoreEq (st st' : CacheState) : Prop where
  enabled : st'.enabled = st.enabled
  maxSize : st'.maxSize = st.maxSize
  maxAge : st'.maxAge = st.maxAge
  maxEntries : st'.maxEntries = st.maxEntries
  hits : st'.hits = st.hits
  misses : st'.misses = st.misses

theorem CoreEq.refl (st : CacheState) : CoreEq st st :=
  ⟨rfl, rfl, rfl, rfl, rfl, rfl⟩

theorem CoreEq.comp {a b c : CacheState} (h1 : CoreEq a b) (h2 : CoreEq b c) :
    CoreEq a c :=
  ⟨h2.enabled.trans h1.enabled, h2.maxSize.trans h1.maxSize,
    h2.maxAge.trans h1.maxAge, h2.maxEntries.trans h1.maxEntries,
    h2.hits.trans h1.hits, h2.misses.trans h1.misses⟩

namespace CacheService

theorem deleteEntry_of_some {st : CacheState} {fs : Fs} {k : Key}
    {e : CacheEntry} (h : lookupEntry st.entries k = some e) :
    deleteEntry st fs k =
      ({ st with
          entries := removeKey st.entries k
          totalSize := st.totalSize - e.size },
        rmEntryDir fs e.filePath) := by
  unfold deleteEntry
  rw [h]

theorem deleteEntry_coreEq (st : CacheState) (fs : Fs) (k : Key) :
    CoreEq st (deleteEntry st fs k).1 := by
  unfold deleteEntry
  cases h : lookupEntry st.entries k <;>
    exact ⟨rfl, rfl, rfl, rfl, rfl, rfl⟩

/-! ### Sorting and filesystem lemmas -/

theorem sumSizesL_nil : sumSizesL [] = 0 := rfl

theorem sumSizesL_cons (e : CacheEntry) (l : List CacheEntry) :
    sumSizesL (e :: l) = e.size + sumSizesL l := by
  unfold sumSizesL
  rw [List.map_cons, List.sum_cons]

theorem insertByAccess_perm (e : CacheEntry) (l : List CacheEntry) :
    List.Perm (insertByAccess e l) (e :: l) := by
  induction l with
  | nil => exact List.Perm.refl _
  | cons x xs ih =>
    simp only [insertByAccess]
    by_cases h : e.accessedAt ≤ x.accessedAt
    · rw [if_pos h]
    · rw [if_neg h]
      exact (ih.cons x).trans (List.Perm.swap e x xs)

theorem sortByAccess_perm (l : List CacheEntry) :
    List.Perm (sortByAccess l) l := by
  induction l with
  | nil => exact List.Perm.refl _
  | cons e rest ih =>
    simp only [sortByAccess]
    exact (insertByAccess_perm e (sortByAccess rest)).trans (ih.cons e)

theorem mem_insertByAccess {y e : CacheEntry} {l : List CacheEntry}
    (h : y ∈ insertByAccess e l) : y = e ∨ y ∈ l := by
  have := (insertByAccess_perm e l).mem_iff.mp h
  simpa using this

theorem insertByAccess_pairwise (e : CacheEntry) (l : List CacheEntry)
    (h : List.Pairwise (fun a b => a.accessedAt ≤ b.accessedAt) l) :
    List.Pairwise (fun a b => a.accessedAt ≤ b.accessedAt)
      (insertByAccess e l) := by
  induction l with
  | nil => simp [insertByAccess]
  | cons x xs ih =>
    have hx := List.pairwise_cons.mp h
    simp only [insertByAccess]
    by_cases hle : e.accessedAt ≤ x.accessedAt
    · rw [if_pos hle]
      refine List.pairwise_cons.mpr ⟨?_, h⟩
      intro y hy
      rcases List.mem_cons.mp hy with hy | hy
      · exact hy ▸ hle
      · exact le_trans hle (hx.1 y hy)
    · rw [if_neg hle]
      refine List.pairwise_cons.mpr ⟨?_, ih hx.2⟩
      intro y hy
      rcases mem_insertByAccess hy with hy | hy
      · exact hy ▸ le_of_lt (lt_of_not_le hle)
      · exact hx.1 y hy

theorem sortByAccess_pairwise (l : List CacheEntry) :
    List.Pairwise (fun a b => a.accessedAt ≤ b.accessedAt) (sortByAccess l) := by
  induction l with
  | nil => simp [sortByAccess]
  | cons e rest ih =>
    unfold sortByAccess
    exact insertByAccess_pairwise e (sortByAccess rest) ih

theorem insertByAccess_append_single (e o : CacheEntry) (l : List CacheEntry)
    (h : e.accessedAt ≤ o.accessedAt) :
    insertByAccess e (l ++ [o]) = insertByAccess e l ++ [o] := by
  induction l with
  | nil =>
    simp only [List.nil_append, insertByAccess]
    rw [if_pos h]
    rfl
  | cons x xs ih =>
    rw [List.cons_append]
    simp only [insertByAccess]
    by_cases hle : e.accessedAt ≤ x.accessedAt
    · rw [if_pos hle, if_pos hle]
      rfl
    · rw [if_neg hle, if_neg hle, ih]
      rfl

theorem sortByAccess_append_last (l : List CacheEntry) (o : CacheEntry)
    (h : ∀ x ∈ l, x.accessedAt ≤ o.accessedAt) :
    sortByAccess (l ++ [o]) = sortByAccess l ++ [o] := by
  induction l with
  | nil => rfl
  | cons e xs ih =>
    have he := h e (List.mem_cons_self ..)
    rw [List.cons_append]
    simp only [sortByAccess]
    rw [ih (fun x hx => h x (List.mem_cons_of_mem _ hx)),
      insertByAccess_append_single e o (sortByAccess xs) he]

theorem fsLookup_rmEntryDir (fs : Fs) (fp p : CPath)
    (h : dirTag p ≠ dirTag fp) :
    fsLookup (rmEntryDir fs fp) p = fsLookup fs p := by
  induction fs with
  | nil => rfl
  | cons q rest ih =>
    by_cases hq : dirTag q.1 = dirTag fp
    · have h1 : rmEntryDir (q :: rest) fp = rmEntryDir rest fp := by
        unfold rmEntryDir
        rw [List.filter_cons_of_neg (by simp [hq])]
      have hqp : ¬(q.1 = p) := fun hqp => h (hqp ▸ hq)
      have h2 : fsLookup (q :: rest) p = fsLookup rest p := by
        unfold fsLookup
        rw [List.find?_cons_of_neg _ (by simpa using hqp)]
      rw [h1, h2, ih]
    · have h1 : rmEntryDir (q :: rest) fp = q :: rmEntryDir rest fp := by
        unfold rmEntryDir
        rw [List.filter_cons_of_pos (by simp [hq])]
      by_cases hqp : q.1 = p
      · rw [h1]
        unfold fsLookup
        rw [List.find?_cons_of_pos _ (by simpa using hqp),
          List.find?_cons_of_pos _ (by simpa using hqp)]
      · rw [h1]
        unfold fsLookup
        rw [List.find?_cons_of_neg _ (by simpa using hqp),
          List.find?_cons_of_neg _ (by simpa using hqp)]
        exact ih

/-! ### The size-constraint eviction loop -/

/-- Full characterization of the size-constraint loop `sizeLoop` on a
snapshot list of entries that are present in the index (with no duplicate
keys): it deletes exactly some prefix of the list; each deletion happened
while still over budget; it stops under budget unless it exhausted the
list; configuration, counters and unrelated files are untouched. -/
theorem sizeLoop_spec (l : List CacheEntry) : ∀ (st : CacheState) (fs : Fs),
    (st.entries.map (fun p => p.1)).Nodup →
    (∀ e ∈ l, lookupEntry st.entries e.key = some e) →
    ((l.map (fun e => e.key)).Nodup) →
    ∃ n, n ≤ l.length ∧
      (sizeLoop st fs l).2.2 = l.drop n ∧
      CoreEq st (sizeLoop st fs l).1 ∧
      (sizeLoop st fs l).1.totalSize = st.totalSize - sumSizesL (l.take n) ∧
      (∀ k', lookupEntry (sizeLoop st fs l).1.entries k'
        = if k' ∈ (l.take n).map (fun e => e.key) then none
          else lookupEntry st.entries k') ∧
      ((sizeLoop st fs l).1.entries.map (fun p => p.1)).Nodup ∧
      (∀ j, j < n → st.maxSize < st.totalSize - sumSizesL (l.take j)) ∧
      ((sizeLoop st fs l).1.totalSize ≤ st.maxSize ∨ n = l.length) ∧
      (∀ p : CPath, (∀ e ∈ l.take n, dirTag p ≠ dirTag e.filePath) →
        fsLookup (sizeLoop st fs l).2.1 p = fsLookup fs p) := by
  induction l with
  | nil =>
    intro st fs hnd _ _
    refine ⟨0, Nat.le_refl _, rfl, CoreEq.refl st, by simp [sizeLoop, sumSizesL],
      ?_, hnd, by omega, Or.inr rfl, fun p _ => rfl⟩
    intro k'
    simp [sizeLoop]
  | cons e rest ih =>
    intro st fs hnd hpres hlnd
    by_cases hover : st.maxSize < st.totalSize
    · -- over budget: delete the head and continue
      have he : lookupEntry st.entries e.key = some e :=
        hpres e (List.mem_cons_self ..)
      have hstep : sizeLoop st fs (e :: rest) =
          sizeLoop
            { st with
              entries := removeKey st.entries e.key
              totalSize := st.totalSize - e.size }
            (rmEntryDir fs e.filePath) rest := by
        simp only [sizeLoop, if_pos hover, deleteEntry_of_some he]
      have hlnd2 : (e.key :: rest.map (fun x => x.key)).Nodup := by
        simpa using hlnd
      have hknotin : e.key ∉ rest.map (fun x => x.key) :=
        (List.nodup_cons.mp hlnd2).1
      have hnd1 : ((removeKey st.entries e.key).map (fun p => p.1)).Nodup :=
        nodup_keys_removeKey e.key hnd
      have hpres1 : ∀ x ∈ rest,
          lookupEntry (removeKey st.entries e.key) x.key = some x := by
        intro x hx
        have hne : x.key ≠ e.key := by
          intro hxe
          exact hknotin (hxe ▸ List.mem_map.mpr ⟨x, hx, rfl⟩)
        rw [lookupEntry_removeKey_ne _ _ _ hne]
        exact hpres x (List.mem_cons_of_mem _ hx)
      obtain ⟨n', hn'le, hrem, hcore, htot, hlook, hnd', hjust, hstop, hfs⟩ :=
        ih { st with
              entries := removeKey st.entries e.key
              totalSize := st.totalSize - e.size }
          (rmEntryDir fs e.filePath) hnd1 hpres1 (List.nodup_cons.mp hlnd2).2
      refine ⟨n' + 1, by simpa using Nat.succ_le_succ hn'le, ?_, ?_, ?_, ?_, ?_,
        ?_, ?_, ?_⟩
      · rw [hstep, hrem, List.drop_succ_cons]
      · rw [hstep]
        exact (deleteEntry_coreEq st fs e.key).comp (by
          rw [deleteEntry_of_some he]
          exact hcore)
      · rw [hstep, htot, List.take_succ_cons, sumSizesL_cons]
        ring
      · intro k'
        rw [hstep, hlook k', List.take_succ_cons, List.map_cons]
        by_cases hk1 : k' ∈ (rest.take n').map (fun x => x.key)
        · rw [if_pos hk1, if_pos (List.mem_cons_of_mem _ hk1)]
        · rw [if_neg hk1]
          by_cases hk2 : k' = e.key
          · rw [if_pos (by rw [hk2]; exact List.mem_cons_self ..), hk2,
              lookupEntry_removeKey_self]
          · rw [if_neg (by
              intro hmem
              rcases List.mem_cons.mp hmem with h | h
              · exact hk2 h
              · exact hk1 h)]
            exact lookupEntry_removeKey_ne _ _ _ hk2
      · rw [hstep]; exact hnd'
      · intro j hj
        cases j with
        | zero => simpa [sumSizesL] using hover
        | succ j' =>
          have := hjust j' (Nat.lt_of_succ_lt_succ hj)
          rw [List.take_succ_cons, sumSizesL_cons]
          simp only at this
          omega
      · rcases hstop with h | h
        · exact Or.inl (by rw [hstep]; simpa using h)
        · exact Or.inr (by rw [h, List.length_cons])
      · intro p hp
        rw [hstep]
        have hpe : dirTag p ≠ dirTag e.filePath :=
          hp e (by rw [List.take_succ_cons]; exact List.mem_cons_self ..)
        rw [hfs p (fun x hx => hp x (by
          rw [List.take_succ_cons]; exact List.mem_cons_of_mem _ hx))]
        exact fsLookup_rmEntryDir fs e.filePath p hpe
    · -- at or under budget: the loop stops immediately
      have hstop : sizeLoop st fs (e :: rest) = (st, fs, e :: rest) := by
        simp only [sizeLoop, if_neg hover]
      refine ⟨0, Nat.zero_le _, by rw [hstop]; rfl, by rw [hstop]; exact CoreEq.refl st,
        by rw [hstop]; simp [sumSizesL], ?_, by rw [hstop]; exact hnd,
        by omega, Or.inl (by rw [hstop]; exact le_of_not_lt hover),
        fun p _ => by rw [hstop]⟩
      intro k'
      rw [hstop]
      simp

theorem lookup_of_mem_values {es : List (Key × CacheEntry)}
    (hnd : (es.map (fun p => p.1)).Nodup)
    (hwf : ∀ p ∈ es, p.2.key = p.1) {e : CacheEntry}
    (he : e ∈ es.map (fun p => p.2)) : lookupEntry es e.key = some e := by
  obtain ⟨p, hp, hpe⟩ := List.mem_map.mp he
  have hk : e.key = p.1 := by rw [← hpe]; exact hwf p hp
  rw [hk]
  have : (p.1, e) = p := Prod.ext rfl hpe.symm
  exact lookupEntry_of_mem hnd (this ▸ hp)

theorem keys_of_values {es : List (Key × CacheEntry)}
    (hwf : ∀ p ∈ es, p.2.key = p.1) :
    (es.map (fun p => p.2)).map (fun e => e.key) = es.map (fun p => p.1) := by
  rw [List.map_map]
  exact List.map_congr_left (fun p hp => hwf p hp)

theorem sumSizesL_values (es : List (Key × CacheEntry)) :
    sumSizesL (es.map (fun p => p.2)) = sumSizes es := by
  unfold sumSizesL sumSizes
  rw [List.map_map]
  rfl

/-- C5: when a cache over its size budget has its constraints enforced
(with a sound running total, no duplicate keys, and the entry count within
its own budget so only the size constraint fires), the evicted entries are
exactly a prefix of the index values sorted by ascending `lastAccessedAt`:
every evicted entry was accessed no later than every surviving one, each
eviction happened while still over budget, and enforcement stops with the
aggregate size within the budget. -/
theorem enforceConstraints_size_lru (st : CacheState) (fs : Fs)
    (hnd : (st.entries.map (fun p => p.1)).Nodup)
    (hwf : ∀ p ∈ st.entries, p.2.key = p.1)
    (hinv : st.totalSize = sumSizes st.entries)
    (hover : st.maxSize < st.totalSize)
    (hmax : 0 ≤ st.maxSize)
    (hcnt : (st.entries.length : ℤ) ≤ st.maxEntries) :
    ∃ n, n ≤ (sortByAccess (st.entries.map (fun p => p.2))).length ∧
      List.Pairwise (fun a b => a.accessedAt ≤ b.accessedAt)
        (sortByAccess (st.entries.map (fun p => p.2))) ∧
      (∀ k', lookupEntry (enforceConstraints st fs).1.entries k'
        = if k' ∈ ((sortByAccess (st.entries.map (fun p => p.2))).take n).map
            (fun e => e.key)
          then none else lookupEntry st.entries k') ∧
      (∀ a ∈ (sortByAccess (st.entries.map (fun p => p.2))).take n,
        ∀ b ∈ (sortByAccess (st.entries.map (fun p => p.2))).drop n,
          a.accessedAt ≤ b.accessedAt) ∧
      (enforceConstraints st fs).1.totalSize
        = st.totalSize
          - sumSizesL ((sortByAccess (st.entries.map (fun p => p.2))).take n) ∧
      (enforceConstraints st fs).1.totalSize ≤ st.maxSize ∧
      (∀ j, j < n → st.maxSize
        < st.totalSize
          - sumSizesL ((sortByAccess (st.entries.map (fun p => p.2))).take j)) := by
  have hperm := sortByAccess_perm (st.entries.map (fun p => p.2))
  have hpres : ∀ e ∈ sortByAccess (st.entries.map (fun p => p.2)),
      lookupEntry st.entries e.key = some e :=
    fun e he => lookup_of_mem_values hnd hwf (hperm.mem_iff.mp he)
  have hlnd : ((sortByAccess (st.entries.map (fun p => p.2))).map
      (fun e => e.key)).Nodup := by
    refine ((hperm.map (fun e => e.key)).nodup_iff).mpr ?_
    rw [keys_of_values hwf]
    exact hnd
  obtain ⟨n, hnle, hrem, hcore, htot, hlook, _, hjust, hstop, _⟩ :=
    sizeLoop_spec (sortByAccess (st.entries.map (fun p => p.2))) st fs
      hnd hpres hlnd
  have hlen : (sortByAccess (st.entries.map (fun p => p.2))).length
      = st.entries.length := by
    rw [hperm.length_eq, List.length_map]
  have hcond : ¬((sizeLoop st fs
        (sortByAccess (st.entries.map (fun p => p.2)))).1.maxEntries
      < (((sizeLoop st fs
        (sortByAccess (st.entries.map (fun p => p.2)))).2.2).length : ℤ)) := by
    rw [hrem, hcore.maxEntries, List.length_drop, hlen]
    have h1 : ((st.entries.length - n : ℕ) : ℤ) ≤ (st.entries.length : ℤ) := by
      exact_mod_cast Nat.sub_le ..
    omega
  have hbranch : enforceConstraints st fs
      = ((sizeLoop st fs (sortByAccess (st.entries.map (fun p => p.2)))).1,
        (sizeLoop st fs (sortByAccess (st.entries.map (fun p => p.2)))).2.1) := by
    simp only [enforceConstraints, if_pos hover]
    rw [if_neg hcond]
  refine ⟨n, hnle, sortByAccess_pairwise _, ?_, ?_, ?_, ?_, ?_⟩
  · intro k'
    rw [hbranch]
    exact hlook k'
  · have hpw := sortByAccess_pairwise (st.entries.map (fun p => p.2))
    rw [← List.take_append_drop n
      (sortByAccess (st.entries.map (fun p => p.2)))] at hpw
    exact (List.pairwise_append.mp hpw).2.2
  · rw [hbranch]
    exact htot
  · rw [hbranch]
    rcases hstop with h | h
    · exact h
    · have hsum : sumSizesL (sortByAccess (st.entries.map (fun p => p.2)))
          = sumSizes st.entries := by
        unfold sumSizesL
        rw [(hperm.map (fun e => (e.size : ℤ))).sum_eq]
        exact sumSizesL_values st.entries
      rw [show (sizeLoop st fs
          (sortByAccess (st.entries.map (fun p => p.2)))).1.totalSize
          = st.totalSize - sumSizesL ((sortByAccess
            (st.entries.map (fun p => p.2))).take n) from htot,
        h, List.take_length, hsum, hinv]
      simpa using hmax
  · exact hjust

end CacheService

def c5Key1 : Key := CacheService.generateCacheKey "a" "af_bella" {}

def c5Key2 : Key := CacheService.generateCacheKey "b" "af_bella" {}

def c5Entry1 : CacheEntry :=
  { key := c5Key1
    text := "a"
    voice := "af_bella"
    options := {}
    filePath := CPath.entryAudio c5Key1
    createdAt := 0
    accessedAt := 5
    size := 6 }

def c5Entry2 : CacheEntry :=
  { key := c5Key2
    text := "b"
    voice := "af_bella"
    options := {}
    filePath := CPath.entryAudio c5Key2
    createdAt := 1
    accessedAt := 10
    size := 6 }

/-- A two-entry cache (12 bytes) over a 10-byte size budget. -/
def c5State : CacheState :=
  { enabled := true
    maxSize := 10
    maxAge := 1000000
    maxEntries := 1000
    entries := [(c5Key1, c5Entry1), (c5Key2, c5Entry2)]
    totalSize := 12
    lastCleanup := 0
    hits := 0
    misses := 0
    statsTotalEntries := 2
    statsTotalSize := 12
    statsHitRate := 0 }

namespace CacheService

/-- C5 (witness): the eviction theorem applied to the concrete two-entry
over-budget cache. -/
theorem enforceConstraints_size_lru_witness :
    (((c5State.entries.map (fun p => p.1)).Nodup) ∧
      (∀ p ∈ c5State.entries, p.2.key = p.1) ∧
      (c5State.totalSize = sumSizes c5State.entries) ∧
      (c5State.maxSize < c5State.totalSize) ∧
      (0 ≤ c5State.maxSize) ∧
      ((c5State.entries.length : ℤ) ≤ c5State.maxEntries)) ∧
    (∃ n, n ≤ (sortByAccess (c5State.entries.map (fun p => p.2))).length ∧
      List.Pairwise (fun a b => a.accessedAt ≤ b.accessedAt)
        (sortByAccess (c5State.entries.map (fun p => p.2))) ∧
      (∀ k', lookupEntry (enforceConstraints c5State []).1.entries k'
        = if k' ∈ ((sortByAccess (c5State.entries.map (fun p => p.2))).take n).map
            (fun e => e.key)
          then none else lookupEntry c5State.entries k') ∧
      (∀ a ∈ (sortByAccess (c5State.entries.map (fun p => p.2))).take n,
        ∀ b ∈ (sortByAccess (c5State.entries.map (fun p => p.2))).drop n,
          a.accessedAt ≤ b.accessedAt) ∧
      (enforceConstraints c5State []).1.totalSize
        = c5State.totalSize
          - sumSizesL ((sortByAccess (c5State.entries.map (fun p => p.2))).take n) ∧
      (enforceConstraints c5State []).1.totalSize ≤ c5State.maxSize ∧
      (∀ j, j < n → c5State.maxSize
        < c5State.totalSize
          - sumSizesL ((sortByAccess
            (c5State.entries.map (fun p => p.2))).take j))) :=
  ⟨⟨by decide, by decide, by decide, by decide, by decide, by decide⟩,
    enforceConstraints_size_lru c5State [] (by decide) (by decide) (by decide)
      (by decide) (by decide) (by decide)⟩

/-! ### Lemmas towards the set/get round trip -/

theorem setEntry_fresh {es : List (Key × CacheEntry)} {k : Key}
    {e : CacheEntry} (h : k ∉ es.map (fun p => p.1)) :
    setEntry es k e = es ++ [(k, e)] := by
  induction es with
  | nil => rfl
  | cons p rest ih =>
    have hne : ¬(p.1 = k) := by
      intro hq
      exact h (List.mem_cons.mpr (Or.inl hq.symm))
    simp only [setEntry, if_neg hne, List.cons_append]
    rw [ih (fun hm => h (List.mem_cons_of_mem _ hm))]

theorem fsLookup_cons (x : CPath × List ℕ) (l : Fs) (q : CPath) :
    fsLookup (x :: l) q = if x.1 = q then some x.2 else fsLookup l q := by
  unfold fsLookup
  by_cases hx : x.1 = q
  · rw [List.find?_cons_of_pos _ (by simpa using hx), if_pos hx]
    rfl
  · rw [List.find?_cons_of_neg _ (by simpa using hx), if_neg hx]

theorem fsLookup_fsWrite_self (fs : Fs) (p : CPath) (b : List ℕ) :
    fsLookup (fsWrite fs p b) p = some b := by
  unfold fsWrite
  rw [fsLookup_cons, if_pos rfl]

theorem fsLookup_filter_ne (fs : Fs) (p q : CPath) (h : q ≠ p) :
    fsLookup (fs.filter (fun r => r.1 ≠ p)) q = fsLookup fs q := by
  induction fs with
  | nil => rfl
  | cons r rest ih =>
    by_cases hr : r.1 = p
    · rw [List.filter_cons_of_neg (by simp [hr])]
      have hrq : ¬(r.1 = q) := by
        rw [hr]
        exact fun hh => h hh.symm
      rw [ih, fsLookup_cons, if_neg hrq]
    · rw [List.filter_cons_of_pos (by simp [hr]), fsLookup_cons,
        fsLookup_cons, ih]

theorem fsLookup_fsWrite_ne (fs : Fs) (p q : CPath) (b : List ℕ)
    (h : q ≠ p) : fsLookup (fsWrite fs p b) q = fsLookup fs q := by
  unfold fsWrite
  rw [fsLookup_cons, if_neg (fun hh => h hh.symm), fsLookup_filter_ne fs p q h]

theorem sumSizes_append (a b : List (Key × CacheEntry)) :
    sumSizes (a ++ b) = sumSizes a + sumSizes b := by
  unfold sumSizes
  rw [List.map_append, List.sum_append]

/-- The count-constraint loop never deletes the final element of its
snapshot when at least one entry is allowed: it stops no later than the
one-element list. -/
theorem countLoop_keeps_last (l : List CacheEntry) (o : CacheEntry) :
    ∀ (st : CacheState) (fs : Fs),
    (st.entries.map (fun p => p.1)).Nodup →
    (∀ e ∈ l ++ [o], lookupEntry st.entries e.key = some e) →
    (((l ++ [o]).map (fun e => e.key)).Nodup) →
    1 ≤ st.maxEntries →
    CoreEq st (countLoop st fs (l ++ [o])).1 ∧
    lookupEntry (countLoop st fs (l ++ [o])).1.entries o.key = some o ∧
    (∀ p : CPath, (∀ e ∈ l, dirTag p ≠ dirTag e.filePath) →
      fsLookup (countLoop st fs (l ++ [o])).2 p = fsLookup fs p) := by
  induction l with
  | nil =>
    intro st fs hnd hpres hlnd hm
    have hstop : countLoop st fs ([] ++ [o]) = (st, fs) := by
      simp only [List.nil_append, countLoop]
      rw [if_neg (by
        simp only [List.length_singleton, Nat.cast_one]
        omega)]
    rw [hstop]
    exact ⟨CoreEq.refl st, hpres o (by simp), fun p _ => rfl⟩
  | cons e l' ih =>
    intro st fs hnd hpres hlnd hm
    rw [List.cons_append] at hpres hlnd ⊢
    by_cases hc : st.maxEntries < (((e :: (l' ++ [o])).length : ℕ) : ℤ)
    · have he : lookupEntry st.entries e.key = some e :=
        hpres e (List.mem_cons_self ..)
      have hstep : countLoop st fs (e :: (l' ++ [o]))
          = countLoop
            { st with
              entries := removeKey st.entries e.key
              totalSize := st.totalSize - e.size }
            (rmEntryDir fs e.filePath) (l' ++ [o]) := by
        simp only [countLoop, if_pos hc, deleteEntry_of_some he]
      have hlnd2 : (e.key :: (l' ++ [o]).map (fun x => x.key)).Nodup := by
        simpa using hlnd
      have hknotin : e.key ∉ (l' ++ [o]).map (fun x => x.key) :=
        (List.nodup_cons.mp hlnd2).1
      have hnd1 : ((removeKey st.entries e.key).map (fun p => p.1)).Nodup :=
        nodup_keys_removeKey e.key hnd
      have hpres1 : ∀ x ∈ l' ++ [o],
          lookupEntry (removeKey st.entries e.key) x.key = some x := by
        intro x hx
        have hne : x.key ≠ e.key := by
          intro hxe
          exact hknotin (hxe ▸ List.mem_map.mpr ⟨x, hx, rfl⟩)
        rw [lookupEntry_removeKey_ne _ _ _ hne]
        exact hpres x (List.mem_cons_of_mem _ hx)
      obtain ⟨hcore, hlook, hfs⟩ :=
        ih { st with
              entries := removeKey st.entries e.key
              totalSize := st.totalSize - e.size }
          (rmEntryDir fs e.filePath) hnd1 hpres1 (List.nodup_cons.mp hlnd2).2 hm
      refine ⟨?_, ?_, ?_⟩
      · rw [hstep]
        exact (deleteEntry_coreEq st fs e.key).comp (by
          rw [deleteEntry_of_some he]
          exact hcore)
      · rw [hstep]
        exact hlook
      · intro p hp
        rw [hstep]
        have hpe : dirTag p ≠ dirTag e.filePath :=
          hp e (List.mem_cons_self ..)
        rw [hfs p (fun x hx => hp x (List.mem_cons_of_mem _ hx))]
        exact fsLookup_rmEntryDir fs e.filePath p hpe
    · have hstop : countLoop st fs (e :: (l' ++ [o])) = (st, fs) := by
        simp only [countLoop, if_neg hc]
      rw [hstop]
      exact ⟨CoreEq.refl st,
        hpres o (List.mem_cons_of_mem _ (by simp)), fun p _ => rfl⟩

/-- After a fresh insertion (new key, strictly/equal newest `accessedAt`,
appended last) whose size fits the budget, constraint enforcement never
evicts the new entry, and never touches its files: the configuration and
hit/miss counters are unchanged, the new entry is still indexed, and its
`audio.wav` is intact. -/
theorem enforceConstraints_keeps_newest (st1 : CacheState) (fs2 : Fs)
    (es : List (Key × CacheEntry)) (k : Key) (entry : CacheEntry)
    (hes : st1.entries = es ++ [(k, entry)])
    (hknotin : k ∉ es.map (fun p => p.1))
    (hnd0 : (es.map (fun p => p.1)).Nodup)
    (hwf : ∀ p ∈ st1.entries, p.2.key = p.1)
    (hfile : ∀ p ∈ st1.entries, p.2.filePath = CPath.entryAudio p.1)
    (hacc : ∀ p ∈ es, p.2.accessedAt ≤ entry.accessedAt)
    (hinv : st1.totalSize = sumSizes st1.entries)
    (hsizeB : (entry.size : ℤ) ≤ st1.maxSize)
    (hment : 1 ≤ st1.maxEntries) :
    CoreEq st1 (enforceConstraints st1 fs2).1 ∧
    lookupEntry (enforceConstraints st1 fs2).1.entries k = some entry ∧
    fsLookup (enforceConstraints st1 fs2).2 (CPath.entryAudio k)
      = fsLookup fs2 (CPath.entryAudio k) := by
  have hmementry : (k, entry) ∈ st1.entries := by
    rw [hes]
    exact List.mem_append_right _ (List.mem_singleton.mpr rfl)
  have hkey : entry.key = k := hwf (k, entry) hmementry
  have hnd1 : (st1.entries.map (fun p => p.1)).Nodup := by
    rw [hes, List.map_append]
    refine List.nodup_append.mpr ⟨hnd0, List.nodup_singleton k, ?_⟩
    intro a ha hb
    have hb2 : a = k := by simpa using hb
    rw [hb2] at ha
    exact hknotin ha
  have hvals : st1.entries.map (fun p => p.2)
      = es.map (fun p => p.2) ++ [entry] := by
    rw [hes, List.map_append]
    rfl
  have haccv : ∀ x ∈ es.map (fun p => p.2),
      x.accessedAt ≤ entry.accessedAt := by
    intro x hx
    obtain ⟨p, hp, hpx⟩ := List.mem_map.mp hx
    exact hpx ▸ hacc p hp
  have hsorted : sortByAccess (st1.entries.map (fun p => p.2))
      = sortByAccess (es.map (fun p => p.2)) ++ [entry] := by
    rw [hvals]
    exact sortByAccess_append_last _ _ haccv
  have hLperm := sortByAccess_perm (es.map (fun p => p.2))
  have hvalkey : ∀ x ∈ es.map (fun p => p.2),
      x.key ∈ es.map (fun p => p.1) := by
    intro x hx
    obtain ⟨p, hp, hpx⟩ := List.mem_map.mp hx
    rw [← hpx, hwf p (hes ▸ List.mem_append_left _ hp)]
    exact List.mem_map.mpr ⟨p, hp, rfl⟩
  have hvalfile : ∀ x ∈ es.map (fun p => p.2),
      x.filePath = CPath.entryAudio x.key := by
    intro x hx
    obtain ⟨p, hp, hpx⟩ := List.mem_map.mp hx
    have hp1 : p ∈ st1.entries := hes ▸ List.mem_append_left _ hp
    rw [← hpx, hfile p hp1, hwf p hp1]
  have hLkey : ∀ x ∈ sortByAccess (es.map (fun p => p.2)),
      x.key ∈ es.map (fun p => p.1) :=
    fun x hx => hvalkey x (hLperm.mem_iff.mp hx)
  have hLfile : ∀ x ∈ sortByAccess (es.map (fun p => p.2)),
      x.filePath = CPath.entryAudio x.key :=
    fun x hx => hvalfile x (hLperm.mem_iff.mp hx)
  have hdirL : ∀ x ∈ sortByAccess (es.map (fun p => p.2)),
      dirTag (CPath.entryAudio k) ≠ dirTag x.filePath := by
    intro x hx hdir
    rw [hLfile x hx] at hdir
    simp only [dirTag, Sum.inl.injEq] at hdir
    exact hknotin (hdir ▸ hLkey x hx)
  have hlookst1 : lookupEntry st1.entries k = some entry := by
    have := lookup_of_mem_values hnd1 hwf
      (e := entry) (by rw [hvals]; exact List.mem_append_right _ (by simp))
    rwa [hkey] at this
  have hpresAll : ∀ e ∈ sortByAccess (es.map (fun p => p.2)) ++ [entry],
      lookupEntry st1.entries e.key = some e := by
    intro e he
    refine lookup_of_mem_values hnd1 hwf ?_
    rw [hvals]
    rcases List.mem_append.mp he with h | h
    · exact List.mem_append_left _ (hLperm.mem_iff.mp h)
    · exact List.mem_append_right _ h
  have hlndAll : ((sortByAccess (es.map (fun p => p.2)) ++ [entry]).map
      (fun e => e.key)).Nodup := by
    have hp2 : List.Perm
        ((sortByAccess (es.map (fun p => p.2)) ++ [entry]).map (fun e => e.key))
        ((es.map (fun p => p.2) ++ [entry]).map (fun e => e.key)) :=
      (hLperm.append_right [entry]).map _
    refine hp2.nodup_iff.mpr ?_
    rw [← hvals, keys_of_values hwf]
    exact hnd1
  by_cases hover : st1.maxSize < st1.totalSize
  · -- size branch: run `sizeLoop` on the sorted snapshot
    obtain ⟨n, hnle, hrem, hcore, htot, hlook, hnd', hjust, _, hfs⟩ :=
      sizeLoop_spec (sortByAccess (es.map (fun p => p.2)) ++ [entry]) st1 fs2
        hnd1 hpresAll hlndAll
    have hsumL : sumSizesL (sortByAccess (es.map (fun p => p.2)))
        = sumSizes es := by
      unfold sumSizesL
      rw [(hLperm.map (fun e => (e.size : ℤ))).sum_eq]
      exact sumSizesL_values es
    have htotal1 : st1.totalSize = sumSizes es + entry.size := by
      rw [hinv, hes, sumSizes_append]
      simp [sumSizes]
    have hnlt : n ≤ (sortByAccess (es.map (fun p => p.2))).length := by
      by_contra hgt
      have hn1 : n = (sortByAccess (es.map (fun p => p.2))).length + 1 := by
        simp only [List.length_append, List.length_singleton] at hnle
        omega
      have hj := hjust (sortByAccess (es.map (fun p => p.2))).length
        (by omega)
      rw [List.take_left, hsumL, htotal1] at hj
      omega
    have htake : (sortByAccess (es.map (fun p => p.2)) ++ [entry]).take n
        = (sortByAccess (es.map (fun p => p.2))).take n :=
      List.take_append_of_le_length hnlt
    have hdrop : (sortByAccess (es.map (fun p => p.2)) ++ [entry]).drop n
        = (sortByAccess (es.map (fun p => p.2))).drop n ++ [entry] :=
      List.drop_append_of_le_length hnlt
    have hksurv : k ∉ ((sortByAccess (es.map (fun p => p.2)) ++ [entry]).take n).map
        (fun e => e.key) := by
      rw [htake]
      intro hmem
      obtain ⟨x, hx, hxk⟩ := List.mem_map.mp hmem
      exact hknotin (hxk ▸ hLkey x (List.take_subset n _ hx))
    have hlookk : lookupEntry
        (sizeLoop st1 fs2 (sortByAccess (es.map (fun p => p.2)) ++ [entry])).1.entries k
        = some entry := by
      rw [hlook k, if_neg hksurv]
      exact hlookst1
    have hfsk : fsLookup
        (sizeLoop st1 fs2 (sortByAccess (es.map (fun p => p.2)) ++ [entry])).2.1
        (CPath.entryAudio k) = fsLookup fs2 (CPath.entryAudio k) := by
      refine hfs _ ?_
      intro e he
      rw [htake] at he
      exact hdirL e (List.take_subset n _ he)
    by_cases hc2 : (sizeLoop st1 fs2
          (sortByAccess (es.map (fun p => p.2)) ++ [entry])).1.maxEntries
        < (((sizeLoop st1 fs2
          (sortByAccess (es.map (fun p => p.2)) ++ [entry])).2.2).length : ℤ)
    · -- count loop also runs; the new entry is still last in LRU order
      have hEC : enforceConstraints st1 fs2
          = countLoop
            (sizeLoop st1 fs2 (sortByAccess (es.map (fun p => p.2)) ++ [entry])).1
            (sizeLoop st1 fs2 (sortByAccess (es.map (fun p => p.2)) ++ [entry])).2.1
            (sortByAccess ((sizeLoop st1 fs2
              (sortByAccess (es.map (fun p => p.2)) ++ [entry])).2.2)) := by
        simp only [enforceConstraints, if_pos hover, hsorted]
        rw [if_pos hc2]
      have hsort2 : sortByAccess ((sizeLoop st1 fs2
            (sortByAccess (es.map (fun p => p.2)) ++ [entry])).2.2)
          = sortByAccess ((sortByAccess (es.map (fun p => p.2))).drop n)
            ++ [entry] := by
        rw [hrem, hdrop]
        refine sortByAccess_append_last _ _ ?_
        intro x hx
        exact haccv x (hLperm.mem_iff.mp (List.drop_subset n _ hx))
      have hdropperm := sortByAccess_perm
        ((sortByAccess (es.map (fun p => p.2))).drop n)
      have hLkeysnodup : ((sortByAccess (es.map (fun p => p.2))).map
          (fun e => e.key)).Nodup := by
        have h := hlndAll
        rw [List.map_append] at h
        exact (List.nodup_append.mp h).1
      have hdropdisj : ∀ x ∈ (sortByAccess (es.map (fun p => p.2))).drop n,
          x.key ∉ ((sortByAccess (es.map (fun p => p.2))).take n).map
            (fun e => e.key) := by
        intro x hx hmem
        have hnd3 : (((sortByAccess (es.map (fun p => p.2))).take n).map
              (fun e => e.key)
            ++ ((sortByAccess (es.map (fun p => p.2))).drop n).map
              (fun e => e.key)).Nodup := by
          rw [← List.map_append, List.take_append_drop]
          exact hLkeysnodup
        exact (List.disjoint_of_nodup_append hnd3) hmem
          (List.mem_map.mpr ⟨x, hx, rfl⟩)
      have hpres2 : ∀ e ∈ sortByAccess
            ((sortByAccess (es.map (fun p => p.2))).drop n) ++ [entry],
          lookupEntry (sizeLoop st1 fs2
            (sortByAccess (es.map (fun p => p.2)) ++ [entry])).1.entries e.key
            = some e := by
        intro e he
        rcases List.mem_append.mp he with h | h
        · have hedrop : e ∈ (sortByAccess (es.map (fun p => p.2))).drop n :=
            hdropperm.mem_iff.mp h
          rw [hlook e.key, if_neg (by rw [htake]; exact hdropdisj e hedrop)]
          exact hpresAll e (List.mem_append_left _
            (List.drop_subset n _ hedrop))
        · rw [List.mem_singleton.mp h, hkey]
          exact hlookk
      have hlnd2 : ((sortByAccess
            ((sortByAccess (es.map (fun p => p.2))).drop n) ++ [entry]).map
          (fun e => e.key)).Nodup := by
        have hp2 : List.Perm
            ((sortByAccess ((sortByAccess (es.map (fun p => p.2))).drop n)
              ++ [entry]).map (fun e => e.key))
            (((sortByAccess (es.map (fun p => p.2))).drop n ++ [entry]).map
              (fun e => e.key)) :=
          (hdropperm.append_right [entry]).map _
        refine hp2.nodup_iff.mpr ?_
        have hsub : List.Sublist
            (((sortByAccess (es.map (fun p => p.2))).drop n ++ [entry]).map
              (fun e => e.key))
            ((sortByAccess (es.map (fun p => p.2)) ++ [entry]).map
              (fun e => e.key)) :=
          ((List.drop_sublist n _).append_right [entry]).map _
        exact hlndAll.sublist hsub
      obtain ⟨hcore2, hlook2, hfs3⟩ :=
        countLoop_keeps_last
          (sortByAccess ((sortByAccess (es.map (fun p => p.2))).drop n)) entry
          (sizeLoop st1 fs2 (sortByAccess (es.map (fun p => p.2)) ++ [entry])).1
          (sizeLoop st1 fs2 (sortByAccess (es.map (fun p => p.2)) ++ [entry])).2.1
          hnd' hpres2 hlnd2 (by rw [hcore.maxEntries]; exact hment)
      refine ⟨?_, ?_, ?_⟩
      · rw [hEC, hsort2]
        exact hcore.comp hcore2
      · rw [hEC, hsort2, ← hkey]
        exact hlook2
      · rw [hEC, hsort2]
        rw [hfs3 (CPath.entryAudio k) (fun e he =>
          hdirL e (List.drop_subset n _ (hdropperm.mem_iff.mp he)))]
        exact hfsk
    · -- only the size loop ran
      have hEC : enforceConstraints st1 fs2
          = ((sizeLoop st1 fs2
              (sortByAccess (es.map (fun p => p.2)) ++ [entry])).1,
            (sizeLoop st1 fs2
              (sortByAccess (es.map (fun p => p.2)) ++ [entry])).2.1) := by
        simp only [enforceConstraints, if_pos hover, hsorted]
        rw [if_neg hc2]
      exact ⟨by rw [hEC]; exact hcore, by rw [hEC]; exact hlookk,
        by rw [hEC]; exact hfsk⟩
  · -- not over the size budget
    by_cases hcB : st1.maxEntries < (st1.entries.length : ℤ)
    · have hEC : enforceConstraints st1 fs2
          = countLoop st1 fs2
            (sortByAccess (es.map (fun p => p.2)) ++ [entry]) := by
        simp only [enforceConstraints, if_neg hover, hsorted]
        rw [if_pos hcB]
      obtain ⟨hcore2, hlook2, hfs3⟩ :=
        countLoop_keeps_last (sortByAccess (es.map (fun p => p.2))) entry
          st1 fs2 hnd1 hpresAll hlndAll hment
      refine ⟨by rw [hEC]; exact hcore2, ?_, ?_⟩
      · rw [hEC, ← hkey]
        exact hlook2
      · rw [hEC]
        exact hfs3 (CPath.entryAudio k) hdirL
    · have hEC : enforceConstraints st1 fs2 = (st1, fs2) := by
        simp only [enforceConstraints, if_neg hover]
        rw [if_neg hcB]
      exact ⟨by rw [hEC]; exact CoreEq.refl st1, by rw [hEC]; exact hlookst1,
        by rw [hEC]⟩

/-- `get` on a present, unexpired entry whose payload file exists: the hit
path returns the payload path, refreshes the access time and counts a hit. -/
theorem get_hit {st2 : CacheState} {fs3 : Fs} {tget : ℤ} {text voice : String}
    {options : GenOptions} {e : CacheEntry} {b : List ℕ}
    (hen2 : st2.enabled = true)
    (hlook : lookupEntry st2.entries (generateCacheKey text voice options)
      = some e)
    (hnexp : ¬(st2.maxAge < tget - e.createdAt))
    (hfile : fsLookup fs3 e.filePath = some b) :
    get st2 fs3 tget text voice options
      = (some e.filePath,
        updateStats
          { st2 with
            entries := touchEntry st2.entries
              (generateCacheKey text voice options) tget
            hits := st2.hits + 1 },
        fs3) := by
  have h1 : ¬(st2.enabled = false) := by rw [hen2]; simp
  simp only [get, if_neg h1, hlook, if_neg hnexp, hfile]

/-- C1 (amended): a successful `set` of a fingerprint NOT already cached
(`hfresh` — overwriting adds the new size to `totalSize` without
subtracting the stale entry's, which can push the total over budget and
evict the freshly written entry) whose payload fits the size budget, on a
well-formed cache with at least one entry slot, followed by a `get` within
the entry's lifetime, returns the path of a byte-identical copy of the
payload, increments `hits` by exactly one and leaves `misses` unchanged. -/
theorem set_then_get_roundtrip (st : CacheState) (fs : Fs)
    (text voice : String) (options : GenOptions) (src : CPath)
    (payload : List ℕ) (tset tget : ℤ)
    (hen : st.enabled = true)
    (hnd : (st.entries.map (fun p => p.1)).Nodup)
    (hwf : ∀ p ∈ st.entries, p.2.key = p.1)
    (hfile : ∀ p ∈ st.entries, p.2.filePath = CPath.entryAudio p.1)
    (hfresh : generateCacheKey text voice options
      ∉ st.entries.map (fun p => p.1))
    (hsrc : fsLookup fs src = some payload)
    (hinv : st.totalSize = sumSizes st.entries)
    (hsize : (payload.length : ℤ) ≤ st.maxSize)
    (hacc : ∀ p ∈ st.entries, p.2.accessedAt ≤ tset)
    (hment : 1 ≤ st.maxEntries)
    (hexp : tget - tset ≤ st.maxAge) :
    ((get (set st fs tset text voice src options).1
        (set st fs tset text voice src options).2 tget text voice options).1
      = some (CPath.entryAudio (generateCacheKey text voice options))) ∧
    (fsLookup (get (set st fs tset text voice src options).1
        (set st fs tset text voice src options).2 tget text voice options).2.2
        (CPath.entryAudio (generateCacheKey text voice options))
      = some payload) ∧
    ((get (set st fs tset text voice src options).1
        (set st fs tset text voice src options).2
        tget text voice options).2.1.hits = st.hits + 1) ∧
    ((get (set st fs tset text voice src options).1
        (set st fs tset text voice src options).2
        tget text voice options).2.1.misses = st.misses) := by
  have hnotfalse : ¬(st.enabled = false) := by rw [hen]; simp
  -- the state and filesystem right after the index insertion, before
  -- constraint enforcement
  have hset : set st fs tset text voice src options
      = (updateStats
          (enforceConstraints
            { st with
              entries := st.entries
                ++ [(generateCacheKey text voice options,
                  { key := generateCacheKey text voice options
                    text := text
                    voice := voice
                    options := options
                    filePath := CPath.entryAudio
                      (generateCacheKey text voice options)
                    createdAt := tset
                    accessedAt := tset
                    size := payload.length })]
              totalSize := st.totalSize + payload.length }
            (fsWrite
              (fsWrite fs (CPath.entryAudio
                (generateCacheKey text voice options)) payload)
              (CPath.entryMeta (generateCacheKey text voice options)) [])).1,
        (enforceConstraints
            { st with
              entries := st.entries
                ++ [(generateCacheKey text voice options,
                  { key := generateCacheKey text voice options
                    text := text
                    voice := voice
                    options := options
                    filePath := CPath.entryAudio
                      (generateCacheKey text voice options)
                    createdAt := tset
                    accessedAt := tset
                    size := payload.length })]
              totalSize := st.totalSize + payload.length }
            (fsWrite
              (fsWrite fs (CPath.entryAudio
                (generateCacheKey text voice options)) payload)
              (CPath.entryMeta (generateCacheKey text voice options)) [])).2) := by
    simp only [set, if_neg hnotfalse, hsrc, setEntry_fresh hfresh]
  obtain ⟨hcoreE, hlookE, hfsE⟩ :=
    enforceConstraints_keeps_newest
      { st with
        entries := st.entries
          ++ [(generateCacheKey text voice options,
            { key := generateCacheKey text voice options
              text := text
              voice := voice
              options := options
              filePath := CPath.entryAudio (generateCacheKey text voice options)
              createdAt := tset
              accessedAt := tset
              size := payload.length })]
        totalSize := st.totalSize + payload.length }
      (fsWrite
        (fsWrite fs (CPath.entryAudio
          (generateCacheKey text voice options)) payload)
        (CPath.entryMeta (generateCacheKey text voice options)) [])
      st.entries (generateCacheKey text voice options)
      { key := generateCacheKey text voice options
        text := text
        voice := voice
        options := options
        filePath := CPath.entryAudio (generateCacheKey text voice options)
        createdAt := tset
        accessedAt := tset
        size := payload.length }
      rfl hfresh hnd
      (by
        intro p hp
        rcases List.mem_append.mp hp with h | h
        · exact hwf p h
        · rw [List.mem_singleton.mp h])
      (by
        intro p hp
        rcases List.mem_append.mp hp with h | h
        · exact hfile p h
        · rw [List.mem_singleton.mp h])
      (fun p hp => hacc p hp)
      (by
        show st.totalSize + (payload.length : ℤ) = sumSizes (st.entries ++ _)
        rw [sumSizes_append, ← hinv]
        simp [sumSizes])
      (by simpa using hsize)
      hment
  -- the payload file is intact after the two writes and enforcement
  have hbytes : fsLookup
      (fsWrite
        (fsWrite fs (CPath.entryAudio
          (generateCacheKey text voice options)) payload)
        (CPath.entryMeta (generateCacheKey text voice options)) [])
      (CPath.entryAudio (generateCacheKey text voice options))
      = some payload := by
    rw [fsLookup_fsWrite_ne _ _ _ _ (fun h => CPath.noConfusion h),
      fsLookup_fsWrite_self]
  rw [hbytes] at hfsE
  rw [hset]
  -- abstract the post-enforcement pair and run `get` on it
  generalize hEC : enforceConstraints
      { st with
        entries := st.entries
          ++ [(generateCacheKey text voice options,
            { key := generateCacheKey text voice options
              text := text
              voice := voice
              options := options
              filePath := CPath.entryAudio (generateCacheKey text voice options)
              createdAt := tset
              accessedAt := tset
              size := payload.length })]
        totalSize := st.totalSize + payload.length }
      (fsWrite
        (fsWrite fs (CPath.entryAudio
          (generateCacheKey text voice options)) payload)
        (CPath.entryMeta (generateCacheKey text voice options)) []) = ec
  rw [hEC] at hcoreE hlookE hfsE
  obtain ⟨stE, fsE⟩ := ec
  have hen2 : (updateStats stE).enabled = true := by
    show stE.enabled = true
    rw [hcoreE.enabled]
    exact hen
  have hnexp : ¬((updateStats stE).maxAge < tget - tset) := by
    show ¬(stE.maxAge < tget - tset)
    rw [hcoreE.maxAge]
    show ¬(st.maxAge < tget - tset)
    omega
  rw [get_hit hen2 hlookE hnexp hfsE]
  refine ⟨rfl, hfsE, ?_, ?_⟩
  · show stE.hits + 1 = st.hits + 1
    rw [hcoreE.hits]
  · show stE.misses = st.misses
    rw [hcoreE.misses]

end CacheService

/-- An enabled empty cache whose size budget (2 bytes) is smaller than the
3-byte payload of `demoFs`. -/
def c1TinyState : CacheState :=
  { enabled := true
    maxSize := 2
    maxAge := 1000000
    maxEntries := 1000
    entries := []
    totalSize := 0
    lastCleanup := 0
    hits := 0
    misses := 0
    statsTotalEntries := 0
    statsTotalSize := 0
    statsHitRate := 0 }

/-- A 3-byte entry already cached under the fingerprint of
`("hi", "af_bella", defaults)`. -/
def c1OverwriteEntry : CacheEntry :=
  { key := CacheService.generateCacheKey "hi" "af_bella" {}
    text := "hi"
    voice := "af_bella"
    options := {}
    filePath := CPath.entryAudio
      (CacheService.generateCacheKey "hi" "af_bella" {})
    createdAt := 0
    accessedAt := 0
    size := 3 }

/-- A well-formed one-entry cache (3 bytes cached, budget 5 bytes) already
holding the fingerprint about to be `set` again: every proviso of the
amended round-trip claim holds here except freshness of the fingerprint. -/
def c1OverwriteState : CacheState :=
  { enabled := true
    maxSize := 5
    maxAge := 1000000
    maxEntries := 1000
    entries := [(CacheService.generateCacheKey "hi" "af_bella" {},
      c1OverwriteEntry)]
    totalSize := 3
    lastCleanup := 0
    hits := 0
    misses := 0
    statsTotalEntries := 1
    statsTotalSize := 3
    statsHitRate := 0 }

namespace CacheService

/-- C1 (counterexample): the round-trip claim fails on the code in two
ways, each forcing one proviso of the amendment.  (1) A payload larger
than the size budget: the `set` succeeds (source file present, cache
enabled, nothing expired) but constraint enforcement immediately evicts
the fresh entry, so the immediate `get` returns `null` and increments
`misses`, not `hits`.  (2) A `set` that overwrites an existing entry of
the same fingerprint, with the payload within budget over a well-formed
index (sound `totalSize`, distinct well-keyed entries, free entry slots,
no expiry): the overwrite adds the new size without subtracting the stale
entry's, the inflated total exceeds the budget, enforcement evicts the
just-written entry, and the immediate `get` misses. -/
theorem set_then_get_roundtrip_counterexample :
    (c1TinyState.enabled = true ∧
      fsLookup demoFs (CPath.external "gen.wav") = some [1, 2, 3] ∧
      (get (set c1TinyState demoFs 0 "hi" "af_bella"
          (CPath.external "gen.wav") {}).1
        (set c1TinyState demoFs 0 "hi" "af_bella"
          (CPath.external "gen.wav") {}).2 0 "hi" "af_bella" {}).1 = none ∧
      (get (set c1TinyState demoFs 0 "hi" "af_bella"
          (CPath.external "gen.wav") {}).1
        (set c1TinyState demoFs 0 "hi" "af_bella"
          (CPath.external "gen.wav") {}).2
        0 "hi" "af_bella" {}).2.1.hits = c1TinyState.hits ∧
      (get (set c1TinyState demoFs 0 "hi" "af_bella"
          (CPath.external "gen.wav") {}).1
        (set c1TinyState demoFs 0 "hi" "af_bella"
          (CPath.external "gen.wav") {}).2
        0 "hi" "af_bella" {}).2.1.misses = c1TinyState.misses + 1) ∧
    (c1OverwriteState.enabled = true ∧
      ((c1OverwriteState.entries.map (fun p => p.1)).Nodup) ∧
      (∀ p ∈ c1OverwriteState.entries, p.2.key = p.1) ∧
      (∀ p ∈ c1OverwriteState.entries,
        p.2.filePath = CPath.entryAudio p.1) ∧
      (c1OverwriteState.totalSize = sumSizes c1OverwriteState.entries) ∧
      fsLookup demoFs (CPath.external "gen.wav") = some [1, 2, 3] ∧
      ((([1, 2, 3] : List ℕ).length : ℤ) ≤ c1OverwriteState.maxSize) ∧
      (∀ p ∈ c1OverwriteState.entries, p.2.accessedAt ≤ (1 : ℤ)) ∧
      (1 ≤ c1OverwriteState.maxEntries) ∧
      ((1 : ℤ) - 1 ≤ c1OverwriteState.maxAge) ∧
      lookupEntry c1OverwriteState.entries
        (generateCacheKey "hi" "af_bella" {}) = some c1OverwriteEntry ∧
      (get (set c1OverwriteState demoFs 1 "hi" "af_bella"
          (CPath.external "gen.wav") {}).1
        (set c1OverwriteState demoFs 1 "hi" "af_bella"
          (CPath.external "gen.wav") {}).2 1 "hi" "af_bella" {}).1 = none ∧
      (get (set c1OverwriteState demoFs 1 "hi" "af_bella"
          (CPath.external "gen.wav") {}).1
        (set c1OverwriteState demoFs 1 "hi" "af_bella"
          (CPath.external "gen.wav") {}).2
        1 "hi" "af_bella" {}).2.1.hits = c1OverwriteState.hits ∧
      (get (set c1OverwriteState demoFs 1 "hi" "af_bella"
          (CPath.external "gen.wav") {}).1
        (set c1OverwriteState demoFs 1 "hi" "af_bella"
          (CPath.external "gen.wav") {}).2
        1 "hi" "af_bella" {}).2.1.misses = c1OverwriteState.misses + 1) := by
  decide

/-- C1 (witness): the amended round-trip theorem at a fresh roomy cache, a
3-byte payload, `set` at time 0 and `get` at time 5. -/
theorem set_then_get_roundtrip_witness :
    ((demoState.enabled = true) ∧
      ((demoState.entries.map (fun p => p.1)).Nodup) ∧
      (∀ p ∈ demoState.entries, p.2.key = p.1) ∧
      (∀ p ∈ demoState.entries, p.2.filePath = CPath.entryAudio p.1) ∧
      (generateCacheKey "hi" "af_bella" {}
        ∉ demoState.entries.map (fun p => p.1)) ∧
      (fsLookup demoFs (CPath.external "gen.wav") = some [1, 2, 3]) ∧
      (demoState.totalSize = sumSizes demoState.entries) ∧
      ((([1, 2, 3] : List ℕ).length : ℤ) ≤ demoState.maxSize) ∧
      (∀ p ∈ demoState.entries, p.2.accessedAt ≤ (0 : ℤ)) ∧
      (1 ≤ demoState.maxEntries) ∧
      ((5 : ℤ) - 0 ≤ demoState.maxAge)) ∧
    (((get (set demoState demoFs 0 "hi" "af_bella"
          (CPath.external "gen.wav") {}).1
        (set demoState demoFs 0 "hi" "af_bella"
          (CPath.external "gen.wav") {}).2 5 "hi" "af_bella" {}).1
      = some (CPath.entryAudio (generateCacheKey "hi" "af_bella" {}))) ∧
    (fsLookup (get (set demoState demoFs 0 "hi" "af_bella"
          (CPath.external "gen.wav") {}).1
        (set demoState demoFs 0 "hi" "af_bella"
          (CPath.external "gen.wav") {}).2 5 "hi" "af_bella" {}).2.2
        (CPath.entryAudio (generateCacheKey "hi" "af_bella" {}))
      = some [1, 2, 3]) ∧
    ((get (set demoState demoFs 0 "hi" "af_bella"
          (CPath.external "gen.wav") {}).1
        (set demoState demoFs 0 "hi" "af_bella"
          (CPath.external "gen.wav") {}).2
        5 "hi" "af_bella" {}).2.1.hits = demoState.hits + 1) ∧
    ((get (set demoState demoFs 0 "hi" "af_bella"
          (CPath.external "gen.wav") {}).1
        (set demoState demoFs 0 "hi" "af_bella"
          (CPath.external "gen.wav") {}).2
        5 "hi" "af_bella" {}).2.1.misses = demoState.misses)) :=
  ⟨⟨by decide, by decide, by decide, by decide, by decide, by decide,
    by decide, by decide, by decide, by decide, by decide⟩,
    set_then_get_roundtrip demoState demoFs "hi" "af_bella" {}
      (CPath.external "gen.wav") [1, 2, 3] 0 5 (by decide) (by decide)
      (by decide) (by decide) (by decide) (by decide) (by decide) (by decide)
      (by decide) (by decide) (by decide)⟩

end CacheService

/-- A cached entry created at time 0. -/
def expiredDemoEntry : CacheEntry :=
  { key := CacheService.generateCacheKey "hi" "af_bella" {}
    text := "hi"
    voice := "af_bella"
    options := {}
    filePath := CPath.entryAudio (CacheService.generateCacheKey "hi" "af_bella" {})
    createdAt := 0
    accessedAt := 0
    size := 3 }

/-- A one-entry cache whose `maxAge` is 3 (so the entry is expired at any
time after 3), with stats in sync. -/
def expiredDemoState : CacheState :=
  { demoState with
    maxAge := 3
    entries := [(CacheService.generateCacheKey "hi" "af_bella" {},
      expiredDemoEntry)]
    totalSize := 3
    statsTotalEntries := 1
    statsTotalSize := 3 }

/-- C4: evaluating two consecutive `set` calls for the same fingerprint
shows the invariant broken: overwriting adds the new payload's size without
subtracting the overwritten entry's, so `totalSize` is 6 while the one live
entry's sizes sum to 3. -/
theorem set_overwrite_breaks_totalSize :
    ((CacheService.set
        (CacheService.set demoState demoFs 0 "hi" "af_bella"
          (CPath.external "gen.wav") {}).1
        (CacheService.set demoState demoFs 0 "hi" "af_bella"
          (CPath.external "gen.wav") {}).2
        1 "hi" "af_bella" (CPath.external "gen.wav") {}).1.totalSize = 6) ∧
    (sumSizes (CacheService.set
        (CacheService.set demoState demoFs 0 "hi" "af_bella"
          (CPath.external "gen.wav") {}).1
        (CacheService.set demoState demoFs 0 "hi" "af_bella"
          (CPath.external "gen.wav") {}).2
        1 "hi" "af_bella" (CPath.external "gen.wav") {}).1.entries = 3) ∧
    ((CacheService.set
        (CacheService.set demoState demoFs 0 "hi" "af_bella"
          (CPath.external "gen.wav") {}).1
        (CacheService.set demoState demoFs 0 "hi" "af_bella"
          (CPath.external "gen.wav") {}).2
        1 "hi" "af_bella" (CPath.external "gen.wav") {}).1.totalSize
      ≠ sumSizes (CacheService.set
        (CacheService.set demoState demoFs 0 "hi" "af_bella"
          (CPath.external "gen.wav") {}).1
        (CacheService.set demoState demoFs 0 "hi" "af_bella"
          (CPath.external "gen.wav") {}).2
        1 "hi" "af_bella" (CPath.external "gen.wav") {}).1.entries) := by
  decide

namespace CacheService

/-- C6: a `get` for an entry whose age exceeds `maxAge` returns a miss,
removes the entry from the index, increments `misses`, and leaves
`getStats().totalEntries` one less than before the call. -/
theorem get_expired_entry (st : CacheState) (fs : Fs) (now : ℤ)
    (text voice : String) (options : GenOptions) (e : CacheEntry)
    (hen : st.enabled = true)
    (hnd : (st.entries.map (fun p => p.1)).Nodup)
    (he : lookupEntry st.entries (generateCacheKey text voice options)
      = some e)
    (hexp : st.maxAge < now - e.createdAt)
    (hsync : st.statsTotalEntries = st.entries.length) :
    (get st fs now text voice options).1 = none ∧
    lookupEntry (get st fs now text voice options).2.1.entries
      (generateCacheKey text voice options) = none ∧
    (get st fs now text voice options).2.1.misses = st.misses + 1 ∧
    (getStats (get st fs now text voice options).2.1).totalEntries + 1
      = (getStats st).totalEntries := by
  have hnotfalse : ¬(st.enabled = false) := by rw [hen]; simp
  have hget : get st fs now text voice options =
      (none,
        updateStats
          { st with
            entries := removeKey st.entries (generateCacheKey text voice options)
            totalSize := st.totalSize - e.size
            misses := st.misses + 1 },
        rmEntryDir fs e.filePath) := by
    simp only [get, if_neg hnotfalse, he, if_pos hexp, deleteEntry_of_some he]
  rw [hget]
  refine ⟨rfl, ?_, rfl, ?_⟩
  · exact lookupEntry_removeKey_self ..
  · show (removeKey st.entries (generateCacheKey text voice options)).length + 1
      = st.statsTotalEntries
    rw [hsync]
    exact length_removeKey_add_one hnd (mem_keys_of_lookup he)

/-- C6 (witness): the expiry theorem at a concrete one-entry cache with
`maxAge = 3`, read at time 10. -/
theorem get_expired_entry_witness :
    ((expiredDemoState.enabled = true) ∧
      ((expiredDemoState.entries.map (fun p => p.1)).Nodup) ∧
      (lookupEntry expiredDemoState.entries
        (generateCacheKey "hi" "af_bella" {}) = some expiredDemoEntry) ∧
      (expiredDemoState.maxAge < 10 - expiredDemoEntry.createdAt) ∧
      (expiredDemoState.statsTotalEntries = expiredDemoState.entries.length)) ∧
    ((get expiredDemoState [] 10 "hi" "af_bella" {}).1 = none ∧
      lookupEntry (get expiredDemoState [] 10 "hi" "af_bella" {}).2.1.entries
        (generateCacheKey "hi" "af_bella" {}) = none ∧
      (get expiredDemoState [] 10 "hi" "af_bella" {}).2.1.misses
        = expiredDemoState.misses + 1 ∧
      (getStats (get expiredDemoState [] 10 "hi" "af_bella" {}).2.1).totalEntries
          + 1
        = (getStats expiredDemoState).totalEntries) :=
  ⟨⟨by decide, by decide, by decide, by decide, by decide⟩,
    get_expired_entry expiredDemoState [] 10 "hi" "af_bella" {}
      expiredDemoEntry (by decide) (by decide) (by decide) (by decide)
      (by decide)⟩

end CacheService

end Koko
